import Mathlib

/-!
Verification of the upb protobuf wire-format encoder (`src/upb/encode.c`).

The encoder writes its output *backwards* into a growable buffer.  We model
the buffer region `[ptr, limit)` of already-written bytes as a Lean list
`out : List Nat` (each element a byte value `< 256`), in final forward order;
writing bytes therefore *prepends* to `out`.  The distance `limit - buf`
(total capacity) is `cap : Nat`, so the free space `ptr - buf` is
`cap - out.length`.  Machine integers are modelled as `Nat` bit patterns with
explicit `% 2^w` where C overflow/truncation matters.  The arena allocator is
modelled by an oracle `upb_malloc_ok : Nat → Bool` deciding whether a given
allocation size succeeds (`upb_malloc` returning non-NULL).  The two
non-local error escapes (`encode_err` call sites) become an `Except` error.
-/

namespace Upb

/-! ### Byte-level primitives -/

/-- The byte emitted by `encode_varint64` for a non-final (continuation)
group: `(char)(val | 0x80)`, i.e. truncated to 8 bits. -/
def contByte (val : Nat) : Nat := (val ||| 128) % 256

/-- `encode_varint64` from `encode.c`: emits the base-128 little-endian
bytes of `val`, least-significant group first, high (continuation) bit set
on every byte except the last. -/
def encode_varint64 (val : Nat) : List Nat :=
  if val > 127 then contByte val :: encode_varint64 (val / 128)
  else [val]
termination_by val
decreasing_by exact Nat.div_lt_self (by omega) (by omega)

/-- Little-endian byte list of width `w` bytes for value `v` (the in-memory
representation of a `w`-byte integer on a little-endian host). -/
def leBytes : Nat → Nat → List Nat
  | 0, _ => []
  | w + 1, v => (v % 256) :: leBytes w (v / 256)

/-- Reassemble a little-endian byte list into a value. -/
def fromLeBytes : List Nat → Nat
  | [] => 0
  | b :: rest => b + 256 * fromLeBytes rest

/-- Byte-swap of a `w`-byte value: the value whose little-endian bytes are
the reverse of `v`'s. -/
def bswap (w v : Nat) : Nat := fromLeBytes ((leBytes w v).reverse)

/-- The in-memory bytes of a `w`-byte integer value `v` on a host with the
given endianness. -/
def memBytes (bigEndian : Bool) (w v : Nat) : List Nat :=
  if bigEndian then (leBytes w v).reverse else leBytes w v

/-- `encode_zz32` from `encode.c`: `((uint32_t)n << 1) ^ (n >> 31)` on the
32-bit pattern `b` (the arithmetic shift of an `int32` by 31 yields all-ones
for a negative value, 0 otherwise). -/
def encode_zz32 (b : Nat) : Nat :=
  ((2 * b) % 2 ^ 32) ^^^ (if b < 2 ^ 31 then 0 else 2 ^ 32 - 1)

/-- `encode_zz64` from `encode.c`: `((uint64_t)n << 1) ^ (n >> 63)` on the
64-bit pattern `b`. -/
def encode_zz64 (b : Nat) : Nat :=
  ((2 * b) % 2 ^ 64) ^^^ (if b < 2 ^ 63 then 0 else 2 ^ 64 - 1)

/-- Sign extension of a 32-bit pattern to a 64-bit pattern, as performed by
the C conversion `(uint64_t)(int64_t)(int32_t)val`. -/
def sext32 (b : Nat) : Nat :=
  if b < 2 ^ 31 then b else b + (2 ^ 64 - 2 ^ 32)

/-! ### Basic facts about the primitives -/

theorem contByte_eq (val : Nat) : contByte val = val % 128 + 128 := by
  have h1 : (val ||| 128) % 2 ^ 8 = val % 2 ^ 8 ||| 128 % 2 ^ 8 := by
    apply Nat.eq_of_testBit_eq
    intro i
    simp only [Nat.testBit_mod_two_pow, Nat.testBit_or]
    by_cases hi : i < 8 <;> simp [hi]
  have h2 : ∀ y < 256, y ||| 128 = y % 128 + 128 := by
    set_option maxRecDepth 4000 in decide
  have h2' := h2 (val % 2 ^ 8) (Nat.mod_lt _ (by norm_num))
  have h := h1.trans (by simpa using h2')
  simp only [contByte]
  norm_num at h ⊢
  omega

theorem encode_varint64_small {val : Nat} (h : val < 128) :
    encode_varint64 val = [val] := by
  rw [encode_varint64, if_neg (by omega)]

/-- Length bound: a 64-bit value's varint occupies at most 10 bytes. -/
theorem encode_varint64_length_le {val : Nat} (h : val < 2 ^ 64) :
    (encode_varint64 val).length ≤ 10 := by
  have gen : ∀ k val, val < 128 ^ (k + 1) → (encode_varint64 val).length ≤ k + 1 := by
    intro k
    induction k with
    | zero =>
      intro val h
      rw [encode_varint64, if_neg (by simp at h; omega)]
      simp
    | succ k ih =>
      intro val h
      rw [encode_varint64]
      by_cases hv : val > 127
      · simp only [hv, if_pos]
        have := ih (val / 128) (by
          have : 128 ^ (k + 1 + 1) = 128 ^ (k + 1) * 128 := by ring
          omega)
        simpa using this
      · simp [hv]
  exact gen 9 val (Nat.lt_of_lt_of_le h (by norm_num))

/-- A 10-byte varint for every value in the top half of the 64-bit range. -/
theorem encode_varint64_length_ten {val : Nat}
    (h1 : 2 ^ 63 ≤ val) (h2 : val < 2 ^ 64) :
    (encode_varint64 val).length = 10 := by
  have gen : ∀ k val, 128 ^ k ≤ val → k + 1 ≤ (encode_varint64 val).length := by
    intro k
    induction k with
    | zero => intro val h; rw [encode_varint64]; split <;> simp
    | succ k ih =>
      intro val h
      rw [encode_varint64]
      have hv : val > 127 := by
        have : (128 : Nat) ^ (k + 1) ≥ 128 ^ 1 :=
          Nat.pow_le_pow_right (by norm_num) (by omega)
        simp [pow_one] at this
        omega
      simp only [hv, if_pos, List.length_cons]
      have := ih (val / 128) (by
        have h128 : 128 ^ (k + 1) = 128 ^ k * 128 := by ring
        rw [h128] at h
        omega)
      omega
  have hle := encode_varint64_length_le h2
  have hge := gen 9 val (by
    have e : (128 : Nat) ^ 9 = 2 ^ 63 := by norm_num
    rw [e]; exact h1)
  omega

/-! ### Wire-format parsing (used to state round-trip properties) -/

/-- Parse one base-128 little-endian varint at the head of a byte stream.
Returns the value and the rest of the stream. -/
def parseVarint : List Nat → Option (Nat × List Nat)
  | [] => none
  | b :: rest =>
    if b < 128 then some (b, rest)
    else
      match parseVarint rest with
      | some (v, r) => some (b % 128 + 128 * v, r)
      | none => none

theorem parseVarint_encode (val : Nat) (rest : List Nat) :
    parseVarint (encode_varint64 val ++ rest) = some (val, rest) := by
  induction val using Nat.strong_induction_on with
  | _ val ih =>
    rw [encode_varint64]
    by_cases hv : val > 127
    · rw [if_pos hv]
      have hb : ¬ contByte val < 128 := by rw [contByte_eq]; omega
      rw [List.cons_append, parseVarint, if_neg hb,
        ih (val / 128) (Nat.div_lt_self (by omega) (by omega))]
      simp [contByte_eq]
      omega
    · rw [if_neg hv]
      rw [List.cons_append, parseVarint, if_pos (by omega)]
      simp

theorem parseVarint_consumes :
    ∀ l v r, parseVarint l = some (v, r) → r.length < l.length := by
  intro l
  induction l with
  | nil => intro v r h; simp [parseVarint] at h
  | cons b rest ih =>
    intro v r h
    rw [parseVarint] at h
    by_cases hb : b < 128
    · rw [if_pos hb] at h
      cases h
      simp
    · rw [if_neg hb] at h
      cases hpr : parseVarint rest with
      | none => rw [hpr] at h; cases h
      | some vr =>
        rw [hpr] at h
        cases h
        have := ih vr.1 vr.2 (by rw [hpr])
        simp at *
        omega

/-! ### Little-endian bytes -/

theorem leBytes_length (w v : Nat) : (leBytes w v).length = w := by
  induction w generalizing v with
  | zero => rfl
  | succ w ih => simp [leBytes, ih]

theorem fromLeBytes_leBytes {w v : Nat} (h : v < 2 ^ (8 * w)) :
    fromLeBytes (leBytes w v) = v := by
  induction w generalizing v with
  | zero =>
    simp at h
    simp [leBytes, fromLeBytes, h]
  | succ w ih =>
    have hdiv : v / 256 < 2 ^ (8 * w) := by
      have h8 : (2 : Nat) ^ (8 * (w + 1)) = 2 ^ (8 * w) * 256 := by
        rw [show 8 * (w + 1) = 8 * w + 8 by ring, pow_add]
        norm_num
      rw [h8] at h
      omega
    simp [leBytes, fromLeBytes, ih hdiv]
    omega

/-! ### XOR with an all-ones mask is complement -/

theorem xor_all_ones {n y : Nat} (h : y < 2 ^ n) :
    y ^^^ (2 ^ n - 1) = 2 ^ n - 1 - y := by
  induction n generalizing y with
  | zero => simp at h; simp [h]
  | succ n ih =>
    have h2 : (2 : Nat) ^ (n + 1) = 2 * 2 ^ n := by ring
    have hq : y / 2 < 2 ^ n := by omega
    have hdiv2 : (2 ^ (n + 1) - 1) / 2 = 2 ^ n - 1 := by omega
    have hd : (y ^^^ (2 ^ (n + 1) - 1)) / 2 = 2 ^ n - 1 - y / 2 := by
      rw [Nat.xor_div_two, hdiv2, ih hq]
    have hodd : (2 ^ (n + 1) - 1) % 2 = 1 := by
      have : (2 : Nat) ^ (n + 1) % 2 = 0 := by omega
      omega
    have hm : ((y ^^^ (2 ^ (n + 1) - 1)) % 2 = 1) ↔ ¬ (y % 2 = 1 ↔ (2 ^ (n + 1) - 1) % 2 = 1) :=
      Nat.xor_mod_two_eq_one
    rw [hodd] at hm
    have hmod : (y ^^^ (2 ^ (n + 1) - 1)) % 2 = 1 - y % 2 := by
      by_cases hy : y % 2 = 1
      · have : ¬ ((y ^^^ (2 ^ (n + 1) - 1)) % 2 = 1) := by
          rw [hm]; simp [hy]
        omega
      · have : (y ^^^ (2 ^ (n + 1) - 1)) % 2 = 1 := by
          rw [hm]; simp [hy]
        omega
    have hde : y ^^^ (2 ^ (n + 1) - 1) =
        2 * ((y ^^^ (2 ^ (n + 1) - 1)) / 2) + (y ^^^ (2 ^ (n + 1) - 1)) % 2 := by
      omega
    rw [hde, hd, hmod]
    omega

/-! ### Zigzag: arithmetic characterisation and decoding -/

theorem encode_zz32_eq {b : Nat} (h : b < 2 ^ 32) :
    encode_zz32 b = if b < 2 ^ 31 then 2 * b else 2 * (2 ^ 32 - b) - 1 := by
  unfold encode_zz32
  by_cases hb : b < 2 ^ 31
  · rw [if_pos hb, if_pos hb]
    have : 2 * b % 2 ^ 32 = 2 * b := Nat.mod_eq_of_lt (by omega)
    simp only [this, Nat.xor_zero]
  · rw [if_neg hb, if_neg hb]
    have hc : 2 * b % 2 ^ 32 = 2 * b - 2 ^ 32 := by
      have h31 : (2 : Nat) ^ 32 = 2 * 2 ^ 31 := by norm_num
      have : 2 * b - 2 ^ 32 < 2 ^ 32 := by omega
      omega
    rw [hc, xor_all_ones (by omega)]
    omega

theorem encode_zz64_eq {b : Nat} (h : b < 2 ^ 64) :
    encode_zz64 b = if b < 2 ^ 63 then 2 * b else 2 * (2 ^ 64 - b) - 1 := by
  unfold encode_zz64
  by_cases hb : b < 2 ^ 63
  · rw [if_pos hb, if_pos hb]
    have : 2 * b % 2 ^ 64 = 2 * b := Nat.mod_eq_of_lt (by omega)
    simp only [this, Nat.xor_zero]
  · rw [if_neg hb, if_neg hb]
    have hc : 2 * b % 2 ^ 64 = 2 * b - 2 ^ 64 := by
      have h63 : (2 : Nat) ^ 64 = 2 * 2 ^ 63 := by norm_num
      have : 2 * b - 2 ^ 64 < 2 ^ 64 := by omega
      omega
    rw [hc, xor_all_ones (by omega)]
    omega

/-- Zigzag decoding (inverse mapping of `encode_zz32`/`encode_zz64` on
`w`-bit patterns): even values come from non-negatives, odd from negatives. -/
def decode_zz (w v : Nat) : Nat :=
  if v % 2 = 0 then v / 2 else 2 ^ w - (v / 2 + 1)

theorem decode_zz32_encode {b : Nat} (h : b < 2 ^ 32) :
    decode_zz 32 (encode_zz32 b) = b := by
  rw [encode_zz32_eq h]
  unfold decode_zz
  by_cases hb : b < 2 ^ 31
  · rw [if_pos hb]
    simp
  · rw [if_neg hb]
    have h31 : (2 : Nat) ^ 32 = 2 * 2 ^ 31 := by norm_num
    rw [if_neg (by omega)]
    omega

theorem decode_zz64_encode {b : Nat} (h : b < 2 ^ 64) :
    decode_zz 64 (encode_zz64 b) = b := by
  rw [encode_zz64_eq h]
  unfold decode_zz
  by_cases hb : b < 2 ^ 63
  · rw [if_pos hb]
    simp
  · rw [if_neg hb]
    have h63 : (2 : Nat) ^ 64 = 2 * 2 ^ 63 := by norm_num
    rw [if_neg (by omega)]
    omega

/-! ### Sign extension -/

theorem sext32_lt (b : Nat) (h : b < 2 ^ 32) : sext32 b < 2 ^ 64 := by
  unfold sext32
  split <;> omega

theorem sext32_mod (b : Nat) (h : b < 2 ^ 32) : sext32 b % 2 ^ 32 = b := by
  unfold sext32
  by_cases hb : b < 2 ^ 31
  · rw [if_pos hb]; omega
  · rw [if_neg hb]
    have : (2 : Nat) ^ 64 - 2 ^ 32 = (2 ^ 32 - 1) * 2 ^ 32 := by norm_num
    rw [this, Nat.add_mul_mod_self_right]
    omega

/-- The sign extension of a negative `int32` lands in the top half of the
64-bit range, hence encodes as a 10-byte varint. -/
theorem sext32_neg_ge {b : Nat} (hlo : 2 ^ 31 ≤ b) (hhi : b < 2 ^ 32) :
    2 ^ 63 ≤ sext32 b ∧ sext32 b < 2 ^ 64 := by
  unfold sext32
  rw [if_neg (by omega)]
  refine ⟨?_, ?_⟩ <;> omega

/-! ### Wire-format parsing of packed payloads -/

/-- Parse a packed varint payload: consecutive varints to the end of the
buffer. -/
def parseVarints (l : List Nat) : Option (List Nat) :=
  match l with
  | [] => some []
  | b :: rest0 =>
    match hp : parseVarint (b :: rest0) with
    | none => none
    | some (v, rest) =>
      match parseVarints rest with
      | none => none
      | some vs => some (v :: vs)
termination_by l.length
decreasing_by
  simp_wf
  exact parseVarint_consumes _ _ _ hp

/-- Parse a packed fixed-width payload: consecutive `w`-byte
little-endian chunks. -/
def parseFixedElems (w : Nat) (l : List Nat) : Option (List Nat) :=
  if w = 0 then none
  else if l = [] then some []
  else if l.length < w then none
  else
    match parseFixedElems w (l.drop w) with
    | none => none
    | some vs => some (fromLeBytes (l.take w) :: vs)
termination_by l.length
decreasing_by
  simp_wf
  rename_i hw hl _
  have h0 : 0 < l.length := List.length_pos.2 hl
  omega

/-! ### Data model

The C encoder walks raw message memory under the direction of a
`upb_msglayout`.  We merge layout and message into one tree: each field
carries its `upb_msglayout_field` data (`FieldInfo`) next to the value
stored in its slot (`FieldVal`).  The sub-layout table (`subs` /
`submsg_index`) is resolved away: a message-typed value carries the
sub-message (with its own merged layout) directly.  Pointers become
`Option`: `none` is the NULL pointer. -/

/-- The 18 proto descriptor types (`UPB_DESCRIPTOR_TYPE_*`). -/
inductive DescType where
  | DOUBLE | FLOAT | INT64 | UINT64 | INT32 | FIXED64 | FIXED32 | BOOL
  | STRING | GROUP | MESSAGE | BYTES | UINT32 | ENUM | SFIXED32 | SFIXED64
  | SINT32 | SINT64
deriving DecidableEq, Repr

/-- Extension mode of a layout (`_UPB_MSGEXT_NONE/_EXTENDABLE/_MSGSET`). -/
inductive ExtMode where
  | NONE | EXTENDABLE | MSGSET
deriving DecidableEq, Repr

/-- `upb_msglayout_field`: field number, descriptor type, the packed bit of
`mode`, and the presence code (0 = implicit, positive = hasbit index,
negative = bitwise-NOT of the oneof-case offset).  The `offset` and
`submsg_index` of the C struct are resolved away by attaching the value and
sub-layout directly (see `FieldVal`). -/
structure FieldInfo where
  number : Nat
  descriptortype : DescType
  packed : Bool
  presence : Int
deriving DecidableEq, Repr

mutual
/-- A message: its unknown-fields blob (`upb_msg_getunknown`; `none` =
NULL), the set hasbit indices and the oneof case values of the prelude, the
layout's extension mode, the declared fields in layout order (the layout's
field array, each with its slot value), and the attached extensions in
storage order. -/
inductive UMsg where
  | mk (unknown : Option (List Nat)) (hasbits : List Nat)
       (oneofs : List (Int × Nat)) (extMode : ExtMode)
       (fields : List (FieldInfo × FieldVal))
       (exts : List (FieldInfo × FieldVal)) : UMsg

/-- A field slot's contents.  `prim` is a 1/4/8-byte scalar slot's bit
pattern; `strv` a `upb_strview`; `subm` a sub-message pointer; the three
`arr*` forms a `upb_array *` whose element memory is interpreted per the
descriptor type; `mp` a `upb_map *`. -/
inductive FieldVal where
  | prim (bits : Nat) : FieldVal
  | strv (s : List Nat) : FieldVal
  | subm (m : Option UMsg) : FieldVal
  | arrPrim (a : Option (List Nat)) : FieldVal
  | arrStr (a : Option (List (List Nat))) : FieldVal
  | arrMsg (a : Option (List UMsg)) : FieldVal
  | mp (m : Option UMap) : FieldVal

/-- A map: the two-field layout of the synthetic map-entry message
(field 1 = key, field 2 = value) and the entries in table iteration
order. -/
inductive UMap where
  | mk (keyField valField : FieldInfo)
       (entries : List (FieldVal × FieldVal)) : UMap
end

def UMsg.unknown : UMsg → Option (List Nat)
  | .mk u _ _ _ _ _ => u

def UMsg.hasbits : UMsg → List Nat
  | .mk _ h _ _ _ _ => h

def UMsg.oneofs : UMsg → List (Int × Nat)
  | .mk _ _ o _ _ _ => o

def UMsg.extMode : UMsg → ExtMode
  | .mk _ _ _ e _ _ => e

def UMsg.fields : UMsg → List (FieldInfo × FieldVal)
  | .mk _ _ _ _ f _ => f

def UMsg.exts : UMsg → List (FieldInfo × FieldVal)
  | .mk _ _ _ _ _ e => e

/-- Read a scalar slot as an integer bit pattern (the C casts
`*(ctype *)field_mem`). -/
def primVal : FieldVal → Nat
  | .prim b => b
  | _ => 0

/-- Read a slot as a `upb_strview`. -/
def strVal : FieldVal → List Nat
  | .strv s => s
  | _ => []

/-- Read a slot as a sub-message pointer (`*(void **)field_mem`). -/
def submVal : FieldVal → Option UMsg
  | .subm m => m
  | _ => none

def arrPrimVal : FieldVal → Option (List Nat)
  | .arrPrim a => a
  | _ => none

def arrStrVal : FieldVal → Option (List (List Nat))
  | .arrStr a => a
  | _ => none

def arrMsgVal : FieldVal → Option (List UMsg)
  | .arrMsg a => a
  | _ => none

def mapVal : FieldVal → Option UMap
  | .mp m => m
  | _ => none

/-- Is an array slot a NULL pointer? -/
def arrNull : FieldVal → Bool
  | .arrPrim a => a.isNone
  | .arrStr a => a.isNone
  | .arrMsg a => a.isNone
  | _ => true

/-- `arr->len`. -/
def arrLen : FieldVal → Nat
  | .arrPrim (some l) => l.length
  | .arrStr (some l) => l.length
  | .arrMsg (some l) => l.length
  | _ => 0

/-! ### Wire types and option flags -/

def UPB_WIRE_TYPE_VARINT : Nat := 0
def UPB_WIRE_TYPE_64BIT : Nat := 1
def UPB_WIRE_TYPE_DELIMITED : Nat := 2
def UPB_WIRE_TYPE_START_GROUP : Nat := 3
def UPB_WIRE_TYPE_END_GROUP : Nat := 4
def UPB_WIRE_TYPE_32BIT : Nat := 5


/-- The descriptor types a packed array can hold (everything but the
delimited and group kinds, per `upb_istypepacked` in the generator). -/
def packable (t : DescType) : Bool :=
  match t with
  | .STRING | .BYTES | .GROUP | .MESSAGE => false
  | _ => true

/-- The bit width of a packed element's slot pattern for each packable
descriptor type (bounds under which parsing is inverse to encoding). -/
def elemBits (t : DescType) : Nat :=
  match t with
  | .FLOAT | .FIXED32 | .SFIXED32 | .INT32 | .ENUM | .SINT32 | .UINT32 => 32
  | _ => 64

/-- The per-element value decoding a parser applies for each varint-packed
descriptor type. -/
def varintDecode (t : DescType) (x : Nat) : Nat :=
  match t with
  | .INT32 | .ENUM => x % 2 ^ 32
  | .SINT32 => decode_zz 32 x
  | .SINT64 => decode_zz 64 x
  | _ => x

/-- The packed payload the encoder produces for a packable descriptor
type: the per-element bytes of `encode_array_impl`'s dispatch, elements in
order. -/
def packedBody (bigEndian : Bool) (t : DescType) (elems : List Nat) :
    List Nat :=
  match t with
  | .DOUBLE | .SFIXED64 | .FIXED64 =>
    List.flatten (elems.map (memBytes bigEndian 8))
  | .FLOAT | .FIXED32 | .SFIXED32 =>
    List.flatten (elems.map (memBytes bigEndian 4))
  | .INT32 | .ENUM =>
    List.flatten (elems.map (fun x => encode_varint64 (sext32 x)))
  | .SINT32 =>
    List.flatten (elems.map (fun x => encode_varint64 (encode_zz32 x)))
  | .SINT64 =>
    List.flatten (elems.map (fun x => encode_varint64 (encode_zz64 x)))
  | .STRING | .BYTES | .GROUP | .MESSAGE => []
  | _ => List.flatten (elems.map encode_varint64)

/-- Wire-format parsing of a packed payload for a packable descriptor
type. -/
def parsePacked (t : DescType) (body : List Nat) : Option (List Nat) :=
  match t with
  | .DOUBLE | .SFIXED64 | .FIXED64 => parseFixedElems 8 body
  | .FLOAT | .FIXED32 | .SFIXED32 => parseFixedElems 4 body
  | .STRING | .BYTES | .GROUP | .MESSAGE => none
  | _ => (parseVarints body).map (List.map (varintDecode t))

/-- Modelled from the spec: `encode.h` is not under `src/`; §6.1 names a
`DETERMINISTIC` bit in the options bitmask (its exact position is
immaterial to the claims, the upper 16 bits being reserved for the depth
override). -/
def UPB_ENCODE_DETERMINISTIC : Nat := 1

/-- Modelled from the spec: §6.1's `SKIP_UNKNOWN` bit of the options
bitmask. -/
def UPB_ENCODE_SKIPUNKNOWN : Nat := 2

/-! ### Encoder state

`upb_context` splits into the read-only part (`EncCtx`: allocator oracle,
options, host endianness) and the mutable part (`EncState`: buffer capacity
`limit - buf`, written suffix `[ptr, limit)` as `out`, and the depth
counter).  `jmp_buf`/`longjmp` become the `Except` error. -/

structure EncCtx where
  upb_malloc_ok : Nat → Bool
  options : Nat
  bigEndian : Bool

structure EncState where
  cap : Nat
  out : List Nat
  depth : Int
deriving Repr

/-- The two `encode_err` reasons: allocation failure in
`encode_growbuffer`, and depth exhaustion on entering a sub-message. -/
inductive EncErr where
  | oom | maxDepth
deriving DecidableEq, Repr

/-! ### Buffer manager -/

def upb_roundup_pow2_go (bytes ret : Nat) : Nat :=
  if 0 < ret ∧ ret < bytes then upb_roundup_pow2_go bytes (ret * 2) else ret
termination_by bytes - ret
decreasing_by omega

/-- `upb_roundup_pow2`: starts at 128 and doubles until `≥ bytes`.  (The
`0 < ret` conjunct is vacuous from the start value 128; it only makes the
recursion well-founded for all arguments.) -/
def upb_roundup_pow2 (bytes : Nat) : Nat := upb_roundup_pow2_go bytes 128

theorem upb_roundup_pow2_go_ge {bytes ret : Nat} (h : 0 < ret) :
    bytes ≤ upb_roundup_pow2_go bytes ret ∧ ret ≤ upb_roundup_pow2_go bytes ret := by
  have H : ∀ m ret, 0 < ret → bytes - ret ≤ m →
      bytes ≤ upb_roundup_pow2_go bytes ret ∧ ret ≤ upb_roundup_pow2_go bytes ret := by
    intro m
    induction m with
    | zero =>
      intro ret h hle
      rw [upb_roundup_pow2_go, if_neg (fun hc => by omega)]
      omega
    | succ m ih =>
      intro ret h hle
      rw [upb_roundup_pow2_go]
      by_cases hc : 0 < ret ∧ ret < bytes
      · rw [if_pos hc]
        have := ih (ret * 2) (by omega) (by omega)
        omega
      · rw [if_neg hc]
        omega
  exact H bytes ret h (by omega)

theorem upb_roundup_pow2_ge (bytes : Nat) :
    bytes ≤ upb_roundup_pow2 bytes ∧ 128 ≤ upb_roundup_pow2 bytes :=
  upb_roundup_pow2_go_ge (by omega)

/-- `encode_growbuffer`: allocate `round_up_pow2(bytes + cur_size)`; on
allocation failure call `encode_err` (OOM).  The copy of the existing
suffix to the high end of the new buffer is implicit: `out` is unchanged. -/
def encode_growbuffer (c : EncCtx) (st : EncState) (bytes : Nat) :
    Except EncErr EncState :=
  let cur_size := st.out.length
  let new_size := upb_roundup_pow2 (bytes + cur_size)
  if c.upb_malloc_ok new_size then .ok { st with cap := new_size }
  else .error .oom

/-- `encode_reserve`: grow when fewer than `bytes` free bytes precede the
write cursor (`ptr - buf < bytes` is `cap - out.length < bytes`). -/
def encode_reserve (c : EncCtx) (st : EncState) (bytes : Nat) :
    Except EncErr EncState :=
  if st.cap - st.out.length < bytes then encode_growbuffer c st bytes
  else .ok st

/-- `encode_bytes`: reserve then copy; no-op for zero length. -/
def encode_bytes (c : EncCtx) (st : EncState) (data : List Nat) :
    Except EncErr EncState :=
  if data.length = 0 then .ok st
  else do
    let st ← encode_reserve c st data.length
    .ok { st with out := data ++ st.out }

/-- `encode_longvarint`: build the bytes in a scratch area, reserve 16
bytes, bulk-copy, and leave the cursor at the first varint byte (the bytes
below it in the reserved block stay in the free region). -/
def encode_longvarint (c : EncCtx) (st : EncState) (val : Nat) :
    Except EncErr EncState := do
  let st ← encode_reserve c st 16
  .ok { st with out := encode_varint64 val ++ st.out }

/-- `encode_varint`: fast path writes a single byte when `val < 128` and
the cursor is not at the buffer base (at least one free byte); slow path
is `encode_longvarint`. -/
def encode_varint (c : EncCtx) (st : EncState) (val : Nat) :
    Except EncErr EncState :=
  if val < 128 ∧ st.out.length < st.cap then
    .ok { st with out := val :: st.out }
  else encode_longvarint c st val

/-- `_upb_be_swap64` (from the port header, not under `src/`): identity on
little-endian hosts, byte swap on big-endian hosts — per the spec's
"byte-swap to little-endian on big-endian hosts". -/
def _upb_be_swap64 (c : EncCtx) (val : Nat) : Nat :=
  if c.bigEndian then bswap 8 val else val

def _upb_be_swap32 (c : EncCtx) (val : Nat) : Nat :=
  if c.bigEndian then bswap 4 val else val

/-- `encode_fixed64`: byte-swap then write the 8-byte in-memory
representation (`encode_bytes(e, &val, 8)`). -/
def encode_fixed64 (c : EncCtx) (st : EncState) (val : Nat) :
    Except EncErr EncState :=
  encode_bytes c st (memBytes c.bigEndian 8 (_upb_be_swap64 c val))

def encode_fixed32 (c : EncCtx) (st : EncState) (val : Nat) :
    Except EncErr EncState :=
  encode_bytes c st (memBytes c.bigEndian 4 (_upb_be_swap32 c val))

/-- `encode_double`: the slot's bit pattern (the `memcpy` of a `double`
into a `uint64_t`) goes through `encode_fixed64`.  `FieldVal.prim` already
holds the bit pattern. -/
def encode_double (c : EncCtx) (st : EncState) (bits : Nat) :
    Except EncErr EncState :=
  encode_fixed64 c st bits

def encode_float (c : EncCtx) (st : EncState) (bits : Nat) :
    Except EncErr EncState :=
  encode_fixed32 c st bits

/-- `encode_tag`: varint of `(field_number << 3) | wire_type` (computed in
`uint32_t`). -/
def encode_tag (c : EncCtx) (st : EncState) (number wire_type : Nat) :
    Except EncErr EncState :=
  encode_varint c st ((number <<< 3 ||| wire_type) % 2 ^ 32)

/-- The tagged (non-packed) loop of `encode_fixedarray_impl`: each element
from last to first, raw in-memory element bytes then the tag. -/
def encode_fixedarray_tagged (c : EncCtx) (elems : List Nat)
    (elem_size tag : Nat) (st : EncState) : Except EncErr EncState :=
  match elems with
  | [] => .ok st
  | x :: rest => do
    let st ← encode_fixedarray_tagged c rest elem_size tag st
    let st ← encode_bytes c st (memBytes c.bigEndian elem_size x)
    encode_varint c st tag

/-- `encode_fixedarray_impl`: with a tag, the tagged loop; packed
(`tag == 0`), one bulk copy of the whole array memory.  (Note the raw
copies: no byte swap in either path — the `// ENDIAN??` comment in the
source.) -/
def encode_fixedarray_impl (c : EncCtx) (elems : List Nat)
    (elem_size tag : Nat) (st : EncState) : Except EncErr EncState :=
  if tag ≠ 0 then encode_fixedarray_tagged c elems elem_size tag st
  else encode_bytes c st (List.flatten (elems.map (memBytes c.bigEndian elem_size)))

/-- The `VARINT_CASE` loop of `encode_array_impl`: elements from last to
first, each as `encode_varint` of a per-type transform, followed by its tag
unless packed (`tag == 0`). -/
def encode_varintarray (c : EncCtx) (enc : Nat → Nat) (elems : List Nat)
    (tag : Nat) (st : EncState) : Except EncErr EncState :=
  match elems with
  | [] => .ok st
  | x :: rest => do
    let st ← encode_varintarray c enc rest tag st
    let st ← encode_varint c st (enc x)
    if tag ≠ 0 then encode_varint c st tag else .ok st

/-- The STRING/BYTES loop of `encode_array_impl`: per element (last to
first) the payload, its length varint and a DELIMITED tag. -/
def encode_strviewarray (c : EncCtx) (number : Nat)
    (strs : List (List Nat)) (st : EncState) : Except EncErr EncState :=
  match strs with
  | [] => .ok st
  | s :: rest => do
    let st ← encode_strviewarray c number rest st
    let st ← encode_bytes c st s
    let st ← encode_varint c st s.length
    encode_tag c st number UPB_WIRE_TYPE_DELIMITED

/-! ### Presence (`encode_shouldencode`) -/

/-- Interpret a `w`-bit pattern as a signed two's-complement integer. -/
def toSigned (w b : Nat) : Int :=
  if b < 2 ^ (w - 1) then (b : Int) else (b : Int) - 2 ^ w

/-- `_upb_getoneofcase_field` (from `msg_internal.h`, not under `src/`),
modelled from the spec §4.7: the oneof case is the `int32` stored at offset
`~presence` of the message. -/
def oneofCase (oneofs : List (Int × Nat)) (off : Int) : Nat :=
  (oneofs.lookup off).getD 0

/-- `_upb_hasbit_field` (from `msg_internal.h`, not under `src/`), modelled
from the spec §4.7/§3: the hasbit with (1-based) index `presence` in the
message prelude. -/
def hasbitField (hasbits : List Nat) (idx : Nat) : Bool :=
  hasbits.contains idx

/-- `encode_shouldencode`: presence 0 reads the slot per its representation
(non-zero scalar / non-empty string view / non-NULL pointer); positive
presence is a hasbit; negative presence compares the oneof case with the
field number. -/
def encode_shouldencode (hasbits : List Nat) (oneofs : List (Int × Nat))
    (f : FieldInfo) (v : FieldVal) : Bool :=
  if f.presence = 0 then
    match v with
    | .prim b => b ≠ 0
    | .strv s => s.length ≠ 0
    | .subm m => m.isSome
    | .arrPrim a => a.isSome
    | .arrStr a => a.isSome
    | .arrMsg a => a.isSome
    | .mp m => m.isSome
  else if f.presence > 0 then hasbitField hasbits f.presence.toNat
  else oneofCase oneofs (-1 - f.presence) == f.number

/-! ### Map-key ordering (the `_upb_mapsorter`)

`_upb_mapsorter_pushmap` / `_upb_sortedmap_next` live in `msg_internal.h` /
`msg.c`, not under `src/`.  Modelled from the spec §4.5: deterministic mode
obtains a view of the entries sorted by key in the natural order of the
key's wire type (lexicographic for bytes/string, numeric for integers,
false-before-true for bool) and iterates it from last to first. -/

/-- Lexicographic `≤` on byte strings. -/
def lexLe : List Nat → List Nat → Bool
  | [], _ => true
  | _ :: _, [] => false
  | a :: as_, b :: bs => if a < b then true else if b < a then false else lexLe as_ bs

/-- The numeric interpretation of an integer-typed map key. -/
def intKeyVal (t : DescType) (v : FieldVal) : Int :=
  match t with
  | .INT32 | .SFIXED32 | .SINT32 | .ENUM => toSigned 32 (primVal v)
  | .INT64 | .SFIXED64 | .SINT64 => toSigned 64 (primVal v)
  | _ => (primVal v : Int)

/-- The sort rank of a map key: byte string for STRING/BYTES keys, numeric
value otherwise. -/
def mapKeyRank (t : DescType) (v : FieldVal) : Int ⊕ List Nat :=
  match t with
  | .STRING | .BYTES => .inr (strVal v)
  | _ => .inl (intKeyVal t v)

/-- Modelled from the spec: the key order used by the map sorter. -/
def mapKeyLe (t : DescType) (a b : FieldVal) : Bool :=
  match mapKeyRank t a, mapKeyRank t b with
  | .inl x, .inl y => decide (x ≤ y)
  | .inr x, .inr y => lexLe x y
  | .inl _, .inr _ => true
  | .inr _, .inl _ => false

/-- The sorted view of the map entries produced by
`_upb_mapsorter_pushmap` (modelled from the spec §4.5). -/
def sortedMapEntries (t : DescType) (es : List (FieldVal × FieldVal)) :
    List (FieldVal × FieldVal) :=
  List.insertionSort (fun a b => mapKeyLe t a.1 b.1 = true) es

theorem sizeOf_of_perm {α} [SizeOf α] {l1 l2 : List α}
    (h : List.Perm l1 l2) : sizeOf l1 = sizeOf l2 := by
  induction h with
  | nil => rfl
  | cons x _ ih => simp [ih]
  | swap x y l => simp; omega
  | trans _ _ ih1 ih2 => omega

theorem sizeOf_sortedMapEntries (t : DescType)
    (es : List (FieldVal × FieldVal)) :
    sizeOf (sortedMapEntries t es) = sizeOf es :=
  sizeOf_of_perm (List.perm_insertionSort _ es)

theorem sizeOf_submVal {v : FieldVal} {m : UMsg} (h : submVal v = some m) :
    sizeOf m < sizeOf v := by
  cases v <;> simp [submVal] at h
  subst h
  simp
  omega

theorem sizeOf_arrMsgVal {v : FieldVal} {l : List UMsg}
    (h : arrMsgVal v = some l) : sizeOf l < sizeOf v := by
  cases v <;> simp [arrMsgVal] at h
  subst h
  simp
  omega

theorem sizeOf_mapVal {v : FieldVal} {kf vf : FieldInfo}
    {es : List (FieldVal × FieldVal)}
    (h : mapVal v = some (UMap.mk kf vf es)) : sizeOf es < sizeOf v := by
  cases v <;> simp [mapVal] at h
  subst h
  simp
  omega

theorem sizeOf_UMsg_fields (m : UMsg) : sizeOf m.fields < sizeOf m := by
  cases m
  simp [UMsg.fields]
  all_goals omega

theorem sizeOf_UMsg_exts (m : UMsg) : sizeOf m.exts < sizeOf m := by
  cases m
  simp [UMsg.exts]
  all_goals omega

/-! ### The encoder proper -/

mutual

/-- `encode_scalar_impl`: dispatch on the descriptor type, emit the value,
then the tag.  Entering a sub-message (MESSAGE/GROUP with a non-NULL
pointer) decrements the depth counter, erroring when it reaches zero, and
restores it afterwards. -/
def encode_scalar_impl (c : EncCtx) (f : FieldInfo) (v : FieldVal)
    (st : EncState) : Except EncErr EncState :=
  match f.descriptortype with
  | .DOUBLE => do
    let st ← encode_double c st (primVal v)
    encode_tag c st f.number UPB_WIRE_TYPE_64BIT
  | .FLOAT => do
    let st ← encode_float c st (primVal v)
    encode_tag c st f.number UPB_WIRE_TYPE_32BIT
  | .INT64 | .UINT64 => do
    let st ← encode_varint c st (primVal v)
    encode_tag c st f.number UPB_WIRE_TYPE_VARINT
  | .UINT32 => do
    let st ← encode_varint c st (primVal v)
    encode_tag c st f.number UPB_WIRE_TYPE_VARINT
  | .INT32 | .ENUM => do
    let st ← encode_varint c st (sext32 (primVal v))
    encode_tag c st f.number UPB_WIRE_TYPE_VARINT
  | .SFIXED64 | .FIXED64 => do
    let st ← encode_fixed64 c st (primVal v)
    encode_tag c st f.number UPB_WIRE_TYPE_64BIT
  | .FIXED32 | .SFIXED32 => do
    let st ← encode_fixed32 c st (primVal v)
    encode_tag c st f.number UPB_WIRE_TYPE_32BIT
  | .BOOL => do
    let st ← encode_varint c st (primVal v)
    encode_tag c st f.number UPB_WIRE_TYPE_VARINT
  | .SINT32 => do
    let st ← encode_varint c st (encode_zz32 (primVal v))
    encode_tag c st f.number UPB_WIRE_TYPE_VARINT
  | .SINT64 => do
    let st ← encode_varint c st (encode_zz64 (primVal v))
    encode_tag c st f.number UPB_WIRE_TYPE_VARINT
  | .STRING | .BYTES => do
    let view := strVal v
    let st ← encode_bytes c st view
    let st ← encode_varint c st view.length
    encode_tag c st f.number UPB_WIRE_TYPE_DELIMITED
  | .GROUP =>
    match hsub : submVal v with
    | none => .ok st
    | some submsg =>
      if st.depth - 1 = 0 then .error .maxDepth
      else do
        let st ← encode_tag c { st with depth := st.depth - 1 } f.number
          UPB_WIRE_TYPE_END_GROUP
        let (st, _) ← encode_message_impl c submsg st
        let st : EncState := { st with depth := st.depth + 1 }
        encode_tag c st f.number UPB_WIRE_TYPE_START_GROUP
  | .MESSAGE =>
    match hsub : submVal v with
    | none => .ok st
    | some submsg =>
      if st.depth - 1 = 0 then .error .maxDepth
      else do
        let (st, size) ← encode_message_impl c submsg
          { st with depth := st.depth - 1 }
        let st ← encode_varint c st size
        let st : EncState := { st with depth := st.depth + 1 }
        encode_tag c st f.number UPB_WIRE_TYPE_DELIMITED
termination_by 2 * sizeOf v
decreasing_by all_goals (simp_wf; all_goals (first
  | omega
  | (have hx := sizeOf_submVal (by assumption); omega)))

/-- The GROUP-array loop of `encode_array_impl` (elements last to first;
the depth is decremented once around the whole loop). -/
def encode_grouparray (c : EncCtx) (number : Nat) (msgs : List UMsg)
    (st : EncState) : Except EncErr EncState :=
  match msgs with
  | [] => .ok st
  | m :: rest => do
    let st ← encode_grouparray c number rest st
    let st ← encode_tag c st number UPB_WIRE_TYPE_END_GROUP
    let (st, _) ← encode_message_impl c m st
    encode_tag c st number UPB_WIRE_TYPE_START_GROUP
termination_by 2 * sizeOf msgs
decreasing_by all_goals (simp_wf; all_goals omega)

/-- The MESSAGE-array loop of `encode_array_impl` (elements last to first;
the depth is decremented once around the whole loop). -/
def encode_msgarray (c : EncCtx) (number : Nat) (msgs : List UMsg)
    (st : EncState) : Except EncErr EncState :=
  match msgs with
  | [] => .ok st
  | m :: rest => do
    let st ← encode_msgarray c number rest st
    let (st, size) ← encode_message_impl c m st
    let st ← encode_varint c st size
    encode_tag c st number UPB_WIRE_TYPE_DELIMITED
termination_by 2 * sizeOf msgs
decreasing_by all_goals (simp_wf; all_goals omega)

/-- `encode_array_impl`: NULL or empty array is a no-op; otherwise emit
the elements (tagged, or untagged when packed), and for packed fields a
trailing length varint `(limit - ptr) - pre_len` and one DELIMITED tag. -/
def encode_array_impl (c : EncCtx) (f : FieldInfo) (v : FieldVal)
    (st : EncState) : Except EncErr EncState :=
  let packed := f.packed
  let pre_len := st.out.length
  if arrNull v || arrLen v == 0 then .ok st
  else do
    let tagOf : Nat → Nat := fun wt =>
      if packed then 0 else (f.number <<< 3 ||| wt) % 2 ^ 32
    let finish : EncState → Except EncErr EncState := fun st =>
      if packed then do
        let st ← encode_varint c st (st.out.length - pre_len)
        encode_tag c st f.number UPB_WIRE_TYPE_DELIMITED
      else .ok st
    match f.descriptortype with
    | .DOUBLE => do
      let st ← encode_fixedarray_impl c ((arrPrimVal v).getD []) 8
        (tagOf UPB_WIRE_TYPE_64BIT) st
      finish st
    | .FLOAT => do
      let st ← encode_fixedarray_impl c ((arrPrimVal v).getD []) 4
        (tagOf UPB_WIRE_TYPE_32BIT) st
      finish st
    | .SFIXED64 | .FIXED64 => do
      let st ← encode_fixedarray_impl c ((arrPrimVal v).getD []) 8
        (tagOf UPB_WIRE_TYPE_64BIT) st
      finish st
    | .FIXED32 | .SFIXED32 => do
      let st ← encode_fixedarray_impl c ((arrPrimVal v).getD []) 4
        (tagOf UPB_WIRE_TYPE_32BIT) st
      finish st
    | .INT64 | .UINT64 => do
      let st ← encode_varintarray c (fun x => x) ((arrPrimVal v).getD [])
        (tagOf UPB_WIRE_TYPE_VARINT) st
      finish st
    | .UINT32 => do
      let st ← encode_varintarray c (fun x => x) ((arrPrimVal v).getD [])
        (tagOf UPB_WIRE_TYPE_VARINT) st
      finish st
    | .INT32 | .ENUM => do
      let st ← encode_varintarray c sext32 ((arrPrimVal v).getD [])
        (tagOf UPB_WIRE_TYPE_VARINT) st
      finish st
    | .BOOL => do
      let st ← encode_varintarray c (fun x => x) ((arrPrimVal v).getD [])
        (tagOf UPB_WIRE_TYPE_VARINT) st
      finish st
    | .SINT32 => do
      let st ← encode_varintarray c encode_zz32 ((arrPrimVal v).getD [])
        (tagOf UPB_WIRE_TYPE_VARINT) st
      finish st
    | .SINT64 => do
      let st ← encode_varintarray c encode_zz64 ((arrPrimVal v).getD [])
        (tagOf UPB_WIRE_TYPE_VARINT) st
      finish st
    | .STRING | .BYTES =>
      encode_strviewarray c f.number ((arrStrVal v).getD []) st
    | .GROUP =>
      match harr : arrMsgVal v with
      | none => .ok st
      | some msgs =>
        if st.depth - 1 = 0 then .error .maxDepth
        else do
          let st ← encode_grouparray c f.number msgs
            { st with depth := st.depth - 1 }
          .ok { st with depth := st.depth + 1 }
    | .MESSAGE =>
      match harr : arrMsgVal v with
      | none => .ok st
      | some msgs =>
        if st.depth - 1 = 0 then .error .maxDepth
        else do
          let st ← encode_msgarray c f.number msgs
            { st with depth := st.depth - 1 }
          .ok { st with depth := st.depth + 1 }
termination_by 2 * sizeOf v
decreasing_by all_goals (simp_wf; all_goals (first
  | omega
  | (have hx := sizeOf_arrMsgVal (by assumption); omega)))

/-- `encode_mapentry_impl`: value scalar, key scalar, the pair's length
varint, then the outer DELIMITED tag. -/
def encode_mapentry_impl (c : EncCtx) (number : Nat)
    (keyField valField : FieldInfo) (entK entV : FieldVal)
    (st : EncState) : Except EncErr EncState := do
  let pre_len := st.out.length
  let st ← encode_scalar_impl c valField entV st
  let st ← encode_scalar_impl c keyField entK st
  let size := st.out.length - pre_len
  let st ← encode_varint c st size
  encode_tag c st number UPB_WIRE_TYPE_DELIMITED
termination_by 2 * (sizeOf entK + sizeOf entV) + 1
decreasing_by all_goals (simp_wf; all_goals omega)

/-- The deterministic-mode entry loop (`while (_upb_sortedmap_next)`),
iterating the sorted view from last to first. -/
def encode_mapentries_det (c : EncCtx) (number : Nat)
    (keyField valField : FieldInfo) (ents : List (FieldVal × FieldVal))
    (st : EncState) : Except EncErr EncState :=
  match ents with
  | [] => .ok st
  | (k, v) :: rest => do
    let st ← encode_mapentries_det c number keyField valField rest st
    encode_mapentry_impl c number keyField valField k v st
termination_by 2 * sizeOf ents
decreasing_by all_goals (simp_wf; all_goals omega)

/-- The default-mode entry loop (`upb_strtable_iter`), iterating the
table's own order first to last. -/
def encode_mapentries_tab (c : EncCtx) (number : Nat)
    (keyField valField : FieldInfo) (ents : List (FieldVal × FieldVal))
    (st : EncState) : Except EncErr EncState :=
  match ents with
  | [] => .ok st
  | (k, v) :: rest => do
    let st ← encode_mapentry_impl c number keyField valField k v st
    encode_mapentries_tab c number keyField valField rest st
termination_by 2 * sizeOf ents
decreasing_by all_goals (simp_wf; all_goals omega)

/-- `encode_map_impl`: NULL map is a no-op; deterministic mode sorts the
entries by key first. -/
def encode_map_impl (c : EncCtx) (f : FieldInfo) (v : FieldVal)
    (st : EncState) : Except EncErr EncState :=
  match h : mapVal v with
  | none => .ok st
  | some (.mk keyField valField entries) =>
    if c.options &&& UPB_ENCODE_DETERMINISTIC ≠ 0 then
      encode_mapentries_det c f.number keyField valField
        (sortedMapEntries keyField.descriptortype entries) st
    else
      encode_mapentries_tab c f.number keyField valField entries st
termination_by 2 * sizeOf v
decreasing_by all_goals (simp_wf; all_goals (first
  | (rw [sizeOf_sortedMapEntries]; have hx := sizeOf_mapVal (by assumption); omega)
  | (have hx := sizeOf_mapVal (by assumption); omega)))

/-- `encode_field_impl`: dispatch on the storage mode. -/
def encode_field_impl (c : EncCtx) (f : FieldInfo) (v : FieldVal)
    (st : EncState) : Except EncErr EncState :=
  match v with
  | .arrPrim a => encode_array_impl c f (.arrPrim a) st
  | .arrStr a => encode_array_impl c f (.arrStr a) st
  | .arrMsg a => encode_array_impl c f (.arrMsg a) st
  | .mp m => encode_map_impl c f (.mp m) st
  | .prim b => encode_scalar_impl c f (.prim b) st
  | .strv s => encode_scalar_impl c f (.strv s) st
  | .subm m => encode_scalar_impl c f (.subm m) st
termination_by 2 * sizeOf v + 1
decreasing_by all_goals (simp_wf; all_goals omega)

/-- `encode_msgset_item`: the fixed `MessageSet` item shape, written in
reverse: END_GROUP(1), message body, its length varint, tag(3, DELIMITED),
varint(type id), tag(2, VARINT), START_GROUP(1). -/
def encode_msgset_item (c : EncCtx) (number : Nat) (m : UMsg)
    (st : EncState) : Except EncErr EncState := do
  let st ← encode_tag c st 1 UPB_WIRE_TYPE_END_GROUP
  let (st, size) ← encode_message_impl c m st
  let st ← encode_varint c st size
  let st ← encode_tag c st 3 UPB_WIRE_TYPE_DELIMITED
  let st ← encode_varint c st number
  let st ← encode_tag c st 2 UPB_WIRE_TYPE_VARINT
  encode_tag c st 1 UPB_WIRE_TYPE_START_GROUP
termination_by 2 * sizeOf m + 1
decreasing_by all_goals (simp_wf; all_goals omega)

/-- The extension loop of `encode_message_impl`: extensions in storage
order, first to last; MessageSet layouts use the item shape (the source
reads the extension's sub-message unconditionally; a non-message payload
there is undefined, spec §9, and is skipped here). -/
def encode_extwalk (c : EncCtx) (mode : ExtMode)
    (exts : List (FieldInfo × FieldVal)) (st : EncState) :
    Except EncErr EncState :=
  match exts with
  | [] => .ok st
  | (fi, fv) :: rest => do
    let st ←
      if mode = ExtMode.MSGSET then
        match hsub : submVal fv with
        | some sub => encode_msgset_item c fi.number sub st
        | none => .ok st
      else encode_field_impl c fi fv st
    encode_extwalk c mode rest st
termination_by 2 * sizeOf exts
decreasing_by all_goals (simp_wf; all_goals (first
  | omega
  | (have hx := sizeOf_submVal (by assumption); omega)))

/-- The declared-field loop of `encode_message_impl`: the layout's field
array from last to first, emitting each field that passes
`encode_shouldencode`. -/
def encode_fieldwalk (c : EncCtx) (hasbits : List Nat)
    (oneofs : List (Int × Nat)) (flds : List (FieldInfo × FieldVal))
    (st : EncState) : Except EncErr EncState :=
  match flds with
  | [] => .ok st
  | (fi, fv) :: rest => do
    let st ← encode_fieldwalk c hasbits oneofs rest st
    if encode_shouldencode hasbits oneofs fi fv then
      encode_field_impl c fi fv st
    else .ok st
termination_by 2 * sizeOf flds
decreasing_by all_goals (simp_wf; all_goals omega)

/-- `encode_message_impl`: unknown-fields blob (unless `SKIP_UNKNOWN`),
then extensions, then declared fields in reverse layout order; returns the
message's encoded size `(limit - ptr) - pre_len`. -/
def encode_message_impl (c : EncCtx) (m : UMsg) (st : EncState) :
    Except EncErr (EncState × Nat) := do
  let pre_len := st.out.length
  let st ←
    if c.options &&& UPB_ENCODE_SKIPUNKNOWN = 0 then
      match m.unknown with
      | some u => encode_bytes c st u
      | none => .ok st
    else .ok st
  let st ←
    if m.extMode ≠ ExtMode.NONE then encode_extwalk c m.extMode m.exts st
    else .ok st
  let st ← encode_fieldwalk c m.hasbits m.oneofs m.fields st
  .ok (st, st.out.length - pre_len)
termination_by 2 * sizeOf m
decreasing_by all_goals (simp_wf; all_goals (first
  | (have h1 := sizeOf_UMsg_exts m; omega)
  | (have h2 := sizeOf_UMsg_fields m; omega)))

end

/-! ### Pure byte-level mirror

The buffered encoder interleaves writing with buffer growth and depth
accounting.  The following total functions compute, with the same case
structure, just the bytes each construct contributes (in forward order);
the refinement theorems below show the buffered encoder prepends exactly
these bytes on success. -/

def pure_tag (number wire_type : Nat) : List Nat :=
  encode_varint64 ((number <<< 3 ||| wire_type) % 2 ^ 32)

def pure_fixed64 (c : EncCtx) (val : Nat) : List Nat :=
  memBytes c.bigEndian 8 (_upb_be_swap64 c val)

def pure_fixed32 (c : EncCtx) (val : Nat) : List Nat :=
  memBytes c.bigEndian 4 (_upb_be_swap32 c val)

def pure_fixedarray_tagged (c : EncCtx) (elems : List Nat)
    (elem_size tag : Nat) : List Nat :=
  match elems with
  | [] => []
  | x :: rest =>
    encode_varint64 tag ++ memBytes c.bigEndian elem_size x ++
      pure_fixedarray_tagged c rest elem_size tag

def pure_fixedarray (c : EncCtx) (elems : List Nat)
    (elem_size tag : Nat) : List Nat :=
  if tag ≠ 0 then pure_fixedarray_tagged c elems elem_size tag
  else List.flatten (elems.map (memBytes c.bigEndian elem_size))

def pure_varintarray (enc : Nat → Nat) (elems : List Nat) (tag : Nat) :
    List Nat :=
  match elems with
  | [] => []
  | x :: rest =>
    (if tag ≠ 0 then encode_varint64 tag else []) ++ encode_varint64 (enc x) ++
      pure_varintarray enc rest tag

def pure_strviewarray (number : Nat) (strs : List (List Nat)) : List Nat :=
  match strs with
  | [] => []
  | s :: rest =>
    pure_tag number UPB_WIRE_TYPE_DELIMITED ++ encode_varint64 s.length ++ s ++
      pure_strviewarray number rest

mutual

def pure_scalar (c : EncCtx) (f : FieldInfo) (v : FieldVal) : List Nat :=
  match f.descriptortype with
  | .DOUBLE => pure_tag f.number UPB_WIRE_TYPE_64BIT ++ pure_fixed64 c (primVal v)
  | .FLOAT => pure_tag f.number UPB_WIRE_TYPE_32BIT ++ pure_fixed32 c (primVal v)
  | .INT64 | .UINT64 =>
    pure_tag f.number UPB_WIRE_TYPE_VARINT ++ encode_varint64 (primVal v)
  | .UINT32 =>
    pure_tag f.number UPB_WIRE_TYPE_VARINT ++ encode_varint64 (primVal v)
  | .INT32 | .ENUM =>
    pure_tag f.number UPB_WIRE_TYPE_VARINT ++ encode_varint64 (sext32 (primVal v))
  | .SFIXED64 | .FIXED64 =>
    pure_tag f.number UPB_WIRE_TYPE_64BIT ++ pure_fixed64 c (primVal v)
  | .FIXED32 | .SFIXED32 =>
    pure_tag f.number UPB_WIRE_TYPE_32BIT ++ pure_fixed32 c (primVal v)
  | .BOOL =>
    pure_tag f.number UPB_WIRE_TYPE_VARINT ++ encode_varint64 (primVal v)
  | .SINT32 =>
    pure_tag f.number UPB_WIRE_TYPE_VARINT ++
      encode_varint64 (encode_zz32 (primVal v))
  | .SINT64 =>
    pure_tag f.number UPB_WIRE_TYPE_VARINT ++
      encode_varint64 (encode_zz64 (primVal v))
  | .STRING | .BYTES =>
    pure_tag f.number UPB_WIRE_TYPE_DELIMITED ++
      encode_varint64 (strVal v).length ++ strVal v
  | .GROUP =>
    match hsub : submVal v with
    | none => []
    | some submsg =>
      pure_tag f.number UPB_WIRE_TYPE_START_GROUP ++ pure_message c submsg ++
        pure_tag f.number UPB_WIRE_TYPE_END_GROUP
  | .MESSAGE =>
    match hsub : submVal v with
    | none => []
    | some submsg =>
      pure_tag f.number UPB_WIRE_TYPE_DELIMITED ++
        encode_varint64 (pure_message c submsg).length ++ pure_message c submsg
termination_by 2 * sizeOf v
decreasing_by all_goals (simp_wf; all_goals (first
  | omega
  | (have hx := sizeOf_submVal (by assumption); omega)))

def pure_grouparray (c : EncCtx) (number : Nat) (msgs : List UMsg) :
    List Nat :=
  match msgs with
  | [] => []
  | m :: rest =>
    pure_tag number UPB_WIRE_TYPE_START_GROUP ++ pure_message c m ++
      pure_tag number UPB_WIRE_TYPE_END_GROUP ++ pure_grouparray c number rest
termination_by 2 * sizeOf msgs
decreasing_by all_goals (simp_wf; all_goals omega)

def pure_msgarray (c : EncCtx) (number : Nat) (msgs : List UMsg) :
    List Nat :=
  match msgs with
  | [] => []
  | m :: rest =>
    pure_tag number UPB_WIRE_TYPE_DELIMITED ++
      encode_varint64 (pure_message c m).length ++ pure_message c m ++
      pure_msgarray c number rest
termination_by 2 * sizeOf msgs
decreasing_by all_goals (simp_wf; all_goals omega)

def pure_array (c : EncCtx) (f : FieldInfo) (v : FieldVal) : List Nat :=
  let packed := f.packed
  if arrNull v || arrLen v == 0 then []
  else
    let tagOf : Nat → Nat := fun wt =>
      if packed then 0 else (f.number <<< 3 ||| wt) % 2 ^ 32
    let finish : List Nat → List Nat := fun body =>
      if packed then
        pure_tag f.number UPB_WIRE_TYPE_DELIMITED ++
          encode_varint64 body.length ++ body
      else body
    match f.descriptortype with
    | .DOUBLE =>
      finish (pure_fixedarray c ((arrPrimVal v).getD []) 8
        (tagOf UPB_WIRE_TYPE_64BIT))
    | .FLOAT =>
      finish (pure_fixedarray c ((arrPrimVal v).getD []) 4
        (tagOf UPB_WIRE_TYPE_32BIT))
    | .SFIXED64 | .FIXED64 =>
      finish (pure_fixedarray c ((arrPrimVal v).getD []) 8
        (tagOf UPB_WIRE_TYPE_64BIT))
    | .FIXED32 | .SFIXED32 =>
      finish (pure_fixedarray c ((arrPrimVal v).getD []) 4
        (tagOf UPB_WIRE_TYPE_32BIT))
    | .INT64 | .UINT64 =>
      finish (pure_varintarray (fun x => x) ((arrPrimVal v).getD [])
        (tagOf UPB_WIRE_TYPE_VARINT))
    | .UINT32 =>
      finish (pure_varintarray (fun x => x) ((arrPrimVal v).getD [])
        (tagOf UPB_WIRE_TYPE_VARINT))
    | .INT32 | .ENUM =>
      finish (pure_varintarray sext32 ((arrPrimVal v).getD [])
        (tagOf UPB_WIRE_TYPE_VARINT))
    | .BOOL =>
      finish (pure_varintarray (fun x => x) ((arrPrimVal v).getD [])
        (tagOf UPB_WIRE_TYPE_VARINT))
    | .SINT32 =>
      finish (pure_varintarray encode_zz32 ((arrPrimVal v).getD [])
        (tagOf UPB_WIRE_TYPE_VARINT))
    | .SINT64 =>
      finish (pure_varintarray encode_zz64 ((arrPrimVal v).getD [])
        (tagOf UPB_WIRE_TYPE_VARINT))
    | .STRING | .BYTES => pure_strviewarray f.number ((arrStrVal v).getD [])
    | .GROUP =>
      match harr : arrMsgVal v with
      | none => []
      | some msgs => pure_grouparray c f.number msgs
    | .MESSAGE =>
      match harr : arrMsgVal v with
      | none => []
      | some msgs => pure_msgarray c f.number msgs
termination_by 2 * sizeOf v
decreasing_by all_goals (simp_wf; all_goals (first
  | omega
  | (have hx := sizeOf_arrMsgVal (by assumption); omega)))

def pure_mapentry (c : EncCtx) (number : Nat)
    (keyField valField : FieldInfo) (entK entV : FieldVal) : List Nat :=
  pure_tag number UPB_WIRE_TYPE_DELIMITED ++
    encode_varint64 (pure_scalar c keyField entK ++
      pure_scalar c valField entV).length ++
    pure_scalar c keyField entK ++ pure_scalar c valField entV
termination_by 2 * (sizeOf entK + sizeOf entV) + 1
decreasing_by all_goals (simp_wf; all_goals omega)

def pure_mapentries_det (c : EncCtx) (number : Nat)
    (keyField valField : FieldInfo) (ents : List (FieldVal × FieldVal)) :
    List Nat :=
  match ents with
  | [] => []
  | (k, v) :: rest =>
    pure_mapentry c number keyField valField k v ++
      pure_mapentries_det c number keyField valField rest
termination_by 2 * sizeOf ents
decreasing_by all_goals (simp_wf; all_goals omega)

def pure_mapentries_tab (c : EncCtx) (number : Nat)
    (keyField valField : FieldInfo) (ents : List (FieldVal × FieldVal)) :
    List Nat :=
  match ents with
  | [] => []
  | (k, v) :: rest =>
    pure_mapentries_tab c number keyField valField rest ++
      pure_mapentry c number keyField valField k v
termination_by 2 * sizeOf ents
decreasing_by all_goals (simp_wf; all_goals omega)

def pure_map (c : EncCtx) (f : FieldInfo) (v : FieldVal) : List Nat :=
  match h : mapVal v with
  | none => []
  | some (.mk keyField valField entries) =>
    if c.options &&& UPB_ENCODE_DETERMINISTIC ≠ 0 then
      pure_mapentries_det c f.number keyField valField
        (sortedMapEntries keyField.descriptortype entries)
    else pure_mapentries_tab c f.number keyField valField entries
termination_by 2 * sizeOf v
decreasing_by all_goals (simp_wf; all_goals (first
  | (rw [sizeOf_sortedMapEntries]; have hx := sizeOf_mapVal (by assumption); omega)
  | (have hx := sizeOf_mapVal (by assumption); omega)))

def pure_field (c : EncCtx) (f : FieldInfo) (v : FieldVal) : List Nat :=
  match v with
  | .arrPrim a => pure_array c f (.arrPrim a)
  | .arrStr a => pure_array c f (.arrStr a)
  | .arrMsg a => pure_array c f (.arrMsg a)
  | .mp m => pure_map c f (.mp m)
  | .prim b => pure_scalar c f (.prim b)
  | .strv s => pure_scalar c f (.strv s)
  | .subm m => pure_scalar c f (.subm m)
termination_by 2 * sizeOf v + 1
decreasing_by all_goals (simp_wf; all_goals omega)

def pure_msgset_item (c : EncCtx) (number : Nat) (m : UMsg) : List Nat :=
  pure_tag 1 UPB_WIRE_TYPE_START_GROUP ++ pure_tag 2 UPB_WIRE_TYPE_VARINT ++
    encode_varint64 number ++ pure_tag 3 UPB_WIRE_TYPE_DELIMITED ++
    encode_varint64 (pure_message c m).length ++ pure_message c m ++
    pure_tag 1 UPB_WIRE_TYPE_END_GROUP
termination_by 2 * sizeOf m + 1
decreasing_by all_goals (simp_wf; all_goals omega)

def pure_extwalk (c : EncCtx) (mode : ExtMode)
    (exts : List (FieldInfo × FieldVal)) : List Nat :=
  match exts with
  | [] => []
  | (fi, fv) :: rest =>
    pure_extwalk c mode rest ++
      (if mode = ExtMode.MSGSET then
        match hsub : submVal fv with
        | some sub => pure_msgset_item c fi.number sub
        | none => []
      else pure_field c fi fv)
termination_by 2 * sizeOf exts
decreasing_by all_goals (simp_wf; all_goals (first
  | omega
  | (have hx := sizeOf_submVal (by assumption); omega)))

def pure_fieldwalk (c : EncCtx) (hasbits : List Nat)
    (oneofs : List (Int × Nat)) (flds : List (FieldInfo × FieldVal)) :
    List Nat :=
  match flds with
  | [] => []
  | (fi, fv) :: rest =>
    (if encode_shouldencode hasbits oneofs fi fv then pure_field c fi fv
     else []) ++ pure_fieldwalk c hasbits oneofs rest
termination_by 2 * sizeOf flds
decreasing_by all_goals (simp_wf; all_goals omega)

def pure_message (c : EncCtx) (m : UMsg) : List Nat :=
  pure_fieldwalk c m.hasbits m.oneofs m.fields ++
    (if m.extMode ≠ ExtMode.NONE then pure_extwalk c m.extMode m.exts
     else []) ++
    (if c.options &&& UPB_ENCODE_SKIPUNKNOWN = 0 then (m.unknown).getD []
     else [])
termination_by 2 * sizeOf m
decreasing_by all_goals (simp_wf; all_goals (first
  | (have h1 := sizeOf_UMsg_exts m; omega)
  | (have h2 := sizeOf_UMsg_fields m; omega)))

end

/-! ### Refinement: the buffered encoder prepends the mirror's bytes -/

theorem except_bind_ok {α β : Type} {e : Except EncErr α}
    {f : α → Except EncErr β} {b : β} (h : (e >>= f) = .ok b) :
    ∃ a, e = .ok a ∧ f a = .ok b := by
  cases e with
  | error err => simp [Bind.bind, Except.bind] at h
  | ok a => exact ⟨a, rfl, by simpa [Bind.bind, Except.bind] using h⟩

theorem encode_growbuffer_ok {c : EncCtx} {st : EncState} {bytes : Nat}
    {st' : EncState} (h : encode_growbuffer c st bytes = .ok st') :
    st'.out = st.out ∧ st'.depth = st.depth := by
  unfold encode_growbuffer at h
  dsimp only at h
  split at h
  · cases h; exact ⟨rfl, rfl⟩
  · cases h

theorem encode_reserve_ok {c : EncCtx} {st : EncState} {bytes : Nat}
    {st' : EncState} (h : encode_reserve c st bytes = .ok st') :
    st'.out = st.out ∧ st'.depth = st.depth := by
  unfold encode_reserve at h
  split at h
  · exact encode_growbuffer_ok h
  · cases h; exact ⟨rfl, rfl⟩

theorem encode_bytes_ok {c : EncCtx} {st : EncState} {data : List Nat}
    {st' : EncState} (h : encode_bytes c st data = .ok st') :
    st'.out = data ++ st.out ∧ st'.depth = st.depth := by
  unfold encode_bytes at h
  split at h
  · cases h
    have : data = [] := List.length_eq_zero.mp (by assumption)
    simp [this]
  · obtain ⟨st1, h1, h2⟩ := except_bind_ok h
    obtain ⟨e1, e2⟩ := encode_reserve_ok h1
    cases h2
    simp [e1, e2]

theorem encode_longvarint_ok {c : EncCtx} {st : EncState} {val : Nat}
    {st' : EncState} (h : encode_longvarint c st val = .ok st') :
    st'.out = encode_varint64 val ++ st.out ∧ st'.depth = st.depth := by
  unfold encode_longvarint at h
  obtain ⟨st1, h1, h2⟩ := except_bind_ok h
  obtain ⟨e1, e2⟩ := encode_reserve_ok h1
  cases h2
  simp [e1, e2]

theorem encode_varint_ok {c : EncCtx} {st : EncState} {val : Nat}
    {st' : EncState} (h : encode_varint c st val = .ok st') :
    st'.out = encode_varint64 val ++ st.out ∧ st'.depth = st.depth := by
  unfold encode_varint at h
  split at h
  · cases h
    rename_i hc
    rw [encode_varint64_small hc.1]
    exact ⟨rfl, rfl⟩
  · exact encode_longvarint_ok h

theorem encode_fixed64_ok {c : EncCtx} {st : EncState} {val : Nat}
    {st' : EncState} (h : encode_fixed64 c st val = .ok st') :
    st'.out = pure_fixed64 c val ++ st.out ∧ st'.depth = st.depth := by
  unfold encode_fixed64 at h
  exact encode_bytes_ok h

theorem encode_fixed32_ok {c : EncCtx} {st : EncState} {val : Nat}
    {st' : EncState} (h : encode_fixed32 c st val = .ok st') :
    st'.out = pure_fixed32 c val ++ st.out ∧ st'.depth = st.depth := by
  unfold encode_fixed32 at h
  exact encode_bytes_ok h

theorem encode_tag_ok {c : EncCtx} {st : EncState} {number wt : Nat}
    {st' : EncState} (h : encode_tag c st number wt = .ok st') :
    st'.out = pure_tag number wt ++ st.out ∧ st'.depth = st.depth := by
  unfold encode_tag at h
  exact encode_varint_ok h

theorem encode_fixedarray_tagged_ok {c : EncCtx} {elem_size tag : Nat} :
    ∀ {elems : List Nat} {st st' : EncState},
    encode_fixedarray_tagged c elems elem_size tag st = .ok st' →
    st'.out = pure_fixedarray_tagged c elems elem_size tag ++ st.out ∧
      st'.depth = st.depth := by
  intro elems
  induction elems with
  | nil =>
    intro st st' h
    unfold encode_fixedarray_tagged at h
    cases h
    simp [pure_fixedarray_tagged]
  | cons x rest ih =>
    intro st st' h
    unfold encode_fixedarray_tagged at h
    obtain ⟨st1, h1, h2⟩ := except_bind_ok h
    obtain ⟨st2, h3, h4⟩ := except_bind_ok h2
    obtain ⟨e1, e2⟩ := ih h1
    obtain ⟨e3, e4⟩ := encode_bytes_ok h3
    obtain ⟨e5, e6⟩ := encode_varint_ok h4
    rw [pure_fixedarray_tagged]
    refine ⟨?_, by omega⟩
    rw [e5, e3, e1]
    simp

theorem encode_fixedarray_impl_ok {c : EncCtx} {elems : List Nat}
    {elem_size tag : Nat} {st st' : EncState}
    (h : encode_fixedarray_impl c elems elem_size tag st = .ok st') :
    st'.out = pure_fixedarray c elems elem_size tag ++ st.out ∧
      st'.depth = st.depth := by
  unfold encode_fixedarray_impl at h
  unfold pure_fixedarray
  split at h
  · rw [if_pos (by assumption)]
    exact encode_fixedarray_tagged_ok h
  · rw [if_neg (by assumption)]
    exact encode_bytes_ok h

theorem encode_varintarray_ok {c : EncCtx} {enc : Nat → Nat} {tag : Nat} :
    ∀ {elems : List Nat} {st st' : EncState},
    encode_varintarray c enc elems tag st = .ok st' →
    st'.out = pure_varintarray enc elems tag ++ st.out ∧
      st'.depth = st.depth := by
  intro elems
  induction elems with
  | nil =>
    intro st st' h
    unfold encode_varintarray at h
    cases h
    simp [pure_varintarray]
  | cons x rest ih =>
    intro st st' h
    unfold encode_varintarray at h
    obtain ⟨st1, h1, h2⟩ := except_bind_ok h
    obtain ⟨st2, h3, h4⟩ := except_bind_ok h2
    obtain ⟨e1, e2⟩ := ih h1
    obtain ⟨e3, e4⟩ := encode_varint_ok h3
    rw [pure_varintarray]
    by_cases ht : tag ≠ 0
    · rw [if_pos ht] at h4 ⊢
      obtain ⟨e5, e6⟩ := encode_varint_ok h4
      refine ⟨?_, by omega⟩
      rw [e5, e3, e1]
      simp
    · rw [if_neg ht] at h4 ⊢
      cases h4
      refine ⟨?_, by omega⟩
      rw [e3, e1]
      simp

theorem encode_strviewarray_ok {c : EncCtx} {number : Nat} :
    ∀ {strs : List (List Nat)} {st st' : EncState},
    encode_strviewarray c number strs st = .ok st' →
    st'.out = pure_strviewarray number strs ++ st.out ∧
      st'.depth = st.depth := by
  intro strs
  induction strs with
  | nil =>
    intro st st' h
    unfold encode_strviewarray at h
    cases h
    simp [pure_strviewarray]
  | cons s rest ih =>
    intro st st' h
    unfold encode_strviewarray at h
    obtain ⟨st1, h1, h2⟩ := except_bind_ok h
    obtain ⟨st2, h3, h4⟩ := except_bind_ok h2
    obtain ⟨st3, h5, h6⟩ := except_bind_ok h4
    obtain ⟨e1, e2⟩ := ih h1
    obtain ⟨e3, e4⟩ := encode_bytes_ok h3
    obtain ⟨e5, e6⟩ := encode_varint_ok h5
    obtain ⟨e7, e8⟩ := encode_tag_ok h6
    rw [pure_strviewarray]
    refine ⟨?_, by omega⟩
    rw [e7, e5, e3, e1]
    simp

set_option maxHeartbeats 4000000 in
/-- The central refinement: every encoder routine, on success, leaves the
depth counter unchanged and prepends to the buffer exactly the bytes of its
pure mirror; `encode_message_impl` additionally reports the mirror's length
as the written size. -/
theorem enc_refines (c : EncCtx) :
    (∀ f v st st', encode_scalar_impl c f v st = .ok st' →
      st'.out = pure_scalar c f v ++ st.out ∧ st'.depth = st.depth) ∧
    (∀ m st r, encode_message_impl c m st = .ok r →
      r.1.out = pure_message c m ++ st.out ∧ r.1.depth = st.depth ∧
        r.2 = (pure_message c m).length) ∧
    (∀ mode exts st st', encode_extwalk c mode exts st = .ok st' →
      st'.out = pure_extwalk c mode exts ++ st.out ∧ st'.depth = st.depth) ∧
    (∀ f v st st', encode_field_impl c f v st = .ok st' →
      st'.out = pure_field c f v ++ st.out ∧ st'.depth = st.depth) ∧
    (∀ f v st st', encode_map_impl c f v st = .ok st' →
      st'.out = pure_map c f v ++ st.out ∧ st'.depth = st.depth) ∧
    (∀ n kf vf ents st st', encode_mapentries_tab c n kf vf ents st = .ok st' →
      st'.out = pure_mapentries_tab c n kf vf ents ++ st.out ∧ st'.depth = st.depth) ∧
    (∀ n kf vf k v st st', encode_mapentry_impl c n kf vf k v st = .ok st' →
      st'.out = pure_mapentry c n kf vf k v ++ st.out ∧ st'.depth = st.depth) ∧
    (∀ n kf vf ents st st', encode_mapentries_det c n kf vf ents st = .ok st' →
      st'.out = pure_mapentries_det c n kf vf ents ++ st.out ∧ st'.depth = st.depth) ∧
    (∀ f v st st', encode_array_impl c f v st = .ok st' →
      st'.out = pure_array c f v ++ st.out ∧ st'.depth = st.depth) ∧
    (∀ n msgs st st', encode_msgarray c n msgs st = .ok st' →
      st'.out = pure_msgarray c n msgs ++ st.out ∧ st'.depth = st.depth) ∧
    (∀ n msgs st st', encode_grouparray c n msgs st = .ok st' →
      st'.out = pure_grouparray c n msgs ++ st.out ∧ st'.depth = st.depth) ∧
    (∀ n m st st', encode_msgset_item c n m st = .ok st' →
      st'.out = pure_msgset_item c n m ++ st.out ∧ st'.depth = st.depth) ∧
    (∀ hb oo flds st st', encode_fieldwalk c hb oo flds st = .ok st' →
      st'.out = pure_fieldwalk c hb oo flds ++ st.out ∧ st'.depth = st.depth) := by
  apply encode_scalar_impl.mutual_induct c
  case case1 =>
    intro f v st hdt st' h
    rw [encode_scalar_impl.eq_def, hdt] at h
    try dsimp only at h
    obtain ⟨st1, h1, h2⟩ := except_bind_ok h
    rw [encode_double] at h1
    obtain ⟨e1, e2⟩ := encode_fixed64_ok h1
    obtain ⟨e3, e4⟩ := encode_tag_ok h2
    rw [pure_scalar.eq_def, hdt]
    try dsimp only
    refine ⟨?_, by omega⟩
    rw [e3, e1]
    simp
  case case2 =>
    intro f v st hdt st' h
    rw [encode_scalar_impl.eq_def, hdt] at h
    try dsimp only at h
    obtain ⟨st1, h1, h2⟩ := except_bind_ok h
    rw [encode_float] at h1
    obtain ⟨e1, e2⟩ := encode_fixed32_ok h1
    obtain ⟨e3, e4⟩ := encode_tag_ok h2
    rw [pure_scalar.eq_def, hdt]
    try dsimp only
    refine ⟨?_, by omega⟩
    rw [e3, e1]
    simp
  case case3 =>
    intro f v st hdt st' h
    rw [encode_scalar_impl.eq_def, hdt] at h
    try dsimp only at h
    obtain ⟨st1, h1, h2⟩ := except_bind_ok h
    obtain ⟨e1, e2⟩ := encode_varint_ok h1
    obtain ⟨e3, e4⟩ := encode_tag_ok h2
    rw [pure_scalar.eq_def, hdt]
    try dsimp only
    refine ⟨?_, by omega⟩
    rw [e3, e1]
    simp
  case case4 =>
    intro f v st hdt st' h
    rw [encode_scalar_impl.eq_def, hdt] at h
    try dsimp only at h
    obtain ⟨st1, h1, h2⟩ := except_bind_ok h
    obtain ⟨e1, e2⟩ := encode_varint_ok h1
    obtain ⟨e3, e4⟩ := encode_tag_ok h2
    rw [pure_scalar.eq_def, hdt]
    try dsimp only
    refine ⟨?_, by omega⟩
    rw [e3, e1]
    simp
  case case5 =>
    intro f v st hdt st' h
    rw [encode_scalar_impl.eq_def, hdt] at h
    try dsimp only at h
    obtain ⟨st1, h1, h2⟩ := except_bind_ok h
    obtain ⟨e1, e2⟩ := encode_varint_ok h1
    obtain ⟨e3, e4⟩ := encode_tag_ok h2
    rw [pure_scalar.eq_def, hdt]
    try dsimp only
    refine ⟨?_, by omega⟩
    rw [e3, e1]
    simp
  case case6 =>
    intro f v st hdt st' h
    rw [encode_scalar_impl.eq_def, hdt] at h
    try dsimp only at h
    obtain ⟨st1, h1, h2⟩ := except_bind_ok h
    obtain ⟨e1, e2⟩ := encode_varint_ok h1
    obtain ⟨e3, e4⟩ := encode_tag_ok h2
    rw [pure_scalar.eq_def, hdt]
    try dsimp only
    refine ⟨?_, by omega⟩
    rw [e3, e1]
    simp
  case case7 =>
    intro f v st hdt st' h
    rw [encode_scalar_impl.eq_def, hdt] at h
    try dsimp only at h
    obtain ⟨st1, h1, h2⟩ := except_bind_ok h
    obtain ⟨e1, e2⟩ := encode_varint_ok h1
    obtain ⟨e3, e4⟩ := encode_tag_ok h2
    rw [pure_scalar.eq_def, hdt]
    try dsimp only
    refine ⟨?_, by omega⟩
    rw [e3, e1]
    simp
  case case8 =>
    intro f v st hdt st' h
    rw [encode_scalar_impl.eq_def, hdt] at h
    try dsimp only at h
    obtain ⟨st1, h1, h2⟩ := except_bind_ok h
    obtain ⟨e1, e2⟩ := encode_fixed64_ok h1
    obtain ⟨e3, e4⟩ := encode_tag_ok h2
    rw [pure_scalar.eq_def, hdt]
    try dsimp only
    refine ⟨?_, by omega⟩
    rw [e3, e1]
    simp
  case case9 =>
    intro f v st hdt st' h
    rw [encode_scalar_impl.eq_def, hdt] at h
    try dsimp only at h
    obtain ⟨st1, h1, h2⟩ := except_bind_ok h
    obtain ⟨e1, e2⟩ := encode_fixed64_ok h1
    obtain ⟨e3, e4⟩ := encode_tag_ok h2
    rw [pure_scalar.eq_def, hdt]
    try dsimp only
    refine ⟨?_, by omega⟩
    rw [e3, e1]
    simp
  case case10 =>
    intro f v st hdt st' h
    rw [encode_scalar_impl.eq_def, hdt] at h
    try dsimp only at h
    obtain ⟨st1, h1, h2⟩ := except_bind_ok h
    obtain ⟨e1, e2⟩ := encode_fixed32_ok h1
    obtain ⟨e3, e4⟩ := encode_tag_ok h2
    rw [pure_scalar.eq_def, hdt]
    try dsimp only
    refine ⟨?_, by omega⟩
    rw [e3, e1]
    simp
  case case11 =>
    intro f v st hdt st' h
    rw [encode_scalar_impl.eq_def, hdt] at h
    try dsimp only at h
    obtain ⟨st1, h1, h2⟩ := except_bind_ok h
    obtain ⟨e1, e2⟩ := encode_fixed32_ok h1
    obtain ⟨e3, e4⟩ := encode_tag_ok h2
    rw [pure_scalar.eq_def, hdt]
    try dsimp only
    refine ⟨?_, by omega⟩
    rw [e3, e1]
    simp
  case case12 =>
    intro f v st hdt st' h
    rw [encode_scalar_impl.eq_def, hdt] at h
    try dsimp only at h
    obtain ⟨st1, h1, h2⟩ := except_bind_ok h
    obtain ⟨e1, e2⟩ := encode_varint_ok h1
    obtain ⟨e3, e4⟩ := encode_tag_ok h2
    rw [pure_scalar.eq_def, hdt]
    try dsimp only
    refine ⟨?_, by omega⟩
    rw [e3, e1]
    simp
  case case13 =>
    intro f v st hdt st' h
    rw [encode_scalar_impl.eq_def, hdt] at h
    try dsimp only at h
    obtain ⟨st1, h1, h2⟩ := except_bind_ok h
    obtain ⟨e1, e2⟩ := encode_varint_ok h1
    obtain ⟨e3, e4⟩ := encode_tag_ok h2
    rw [pure_scalar.eq_def, hdt]
    try dsimp only
    refine ⟨?_, by omega⟩
    rw [e3, e1]
    simp
  case case14 =>
    intro f v st hdt st' h
    rw [encode_scalar_impl.eq_def, hdt] at h
    try dsimp only at h
    obtain ⟨st1, h1, h2⟩ := except_bind_ok h
    obtain ⟨e1, e2⟩ := encode_varint_ok h1
    obtain ⟨e3, e4⟩ := encode_tag_ok h2
    rw [pure_scalar.eq_def, hdt]
    try dsimp only
    refine ⟨?_, by omega⟩
    rw [e3, e1]
    simp
  case case15 =>
    intro f v st hdt st' h
    rw [encode_scalar_impl.eq_def, hdt] at h
    try dsimp only at h
    obtain ⟨st1, h1, h2⟩ := except_bind_ok h
    obtain ⟨st2, h3, h4⟩ := except_bind_ok h2
    obtain ⟨e1, e2⟩ := encode_bytes_ok h1
    obtain ⟨e3, e4⟩ := encode_varint_ok h3
    obtain ⟨e5, e6⟩ := encode_tag_ok h4
    rw [pure_scalar.eq_def, hdt]
    try dsimp only
    refine ⟨?_, by omega⟩
    rw [e5, e3, e1]
    simp
  case case16 =>
    intro f v st hdt st' h
    rw [encode_scalar_impl.eq_def, hdt] at h
    try dsimp only at h
    obtain ⟨st1, h1, h2⟩ := except_bind_ok h
    obtain ⟨st2, h3, h4⟩ := except_bind_ok h2
    obtain ⟨e1, e2⟩ := encode_bytes_ok h1
    obtain ⟨e3, e4⟩ := encode_varint_ok h3
    obtain ⟨e5, e6⟩ := encode_tag_ok h4
    rw [pure_scalar.eq_def, hdt]
    try dsimp only
    refine ⟨?_, by omega⟩
    rw [e5, e3, e1]
    simp
  case case17 =>
    intro f v st hdt hsub st' h
    rw [encode_scalar_impl.eq_def, hdt] at h
    try dsimp only at h
    rw [hsub] at h
    try dsimp only at h
    cases h
    rw [pure_scalar.eq_def, hdt]
    try dsimp only
    rw [hsub]
    simp
  case case18 =>
    intro f v st hdt submsg hsub hd st' h
    rw [encode_scalar_impl.eq_def, hdt] at h
    try dsimp only at h
    rw [hsub] at h
    try dsimp only at h
    rw [if_pos hd] at h
    simp at h
  case case19 =>
    intro f v st hdt submsg hsub hd ih st' h
    rw [encode_scalar_impl.eq_def, hdt] at h
    try dsimp only at h
    rw [hsub] at h
    try dsimp only at h
    rw [if_neg hd] at h
    obtain ⟨st1, h1, h2⟩ := except_bind_ok h
    obtain ⟨e1, e2⟩ := encode_tag_ok h1
    obtain ⟨r, h3, h4⟩ := except_bind_ok h2
    obtain ⟨st2, sz⟩ := r
    obtain ⟨e3, e4, e5⟩ := ih _ _ h3
    try dsimp only at h4
    obtain ⟨e6, e7⟩ := encode_tag_ok h4
    rw [pure_scalar.eq_def, hdt]
    try dsimp only
    rw [hsub]
    try dsimp only
    constructor
    · rw [e6]
      try dsimp only
      rw [e3, e1]
      try dsimp only at e3 ⊢
      simp
    · try dsimp only at e7 e4 e2 ⊢
      omega
  case case20 =>
    intro f v st hdt hsub st' h
    rw [encode_scalar_impl.eq_def, hdt] at h
    try dsimp only at h
    rw [hsub] at h
    try dsimp only at h
    cases h
    rw [pure_scalar.eq_def, hdt]
    try dsimp only
    rw [hsub]
    simp
  case case21 =>
    intro f v st hdt submsg hsub hd st' h
    rw [encode_scalar_impl.eq_def, hdt] at h
    try dsimp only at h
    rw [hsub] at h
    try dsimp only at h
    rw [if_pos hd] at h
    simp at h
  case case22 =>
    intro f v st hdt submsg hsub hd ih st' h
    rw [encode_scalar_impl.eq_def, hdt] at h
    try dsimp only at h
    rw [hsub] at h
    try dsimp only at h
    rw [if_neg hd] at h
    obtain ⟨r, h1, h2⟩ := except_bind_ok h
    obtain ⟨st2, sz⟩ := r
    obtain ⟨e1, e2, e3⟩ := ih _ h1
    try dsimp only at h2 e1 e2 e3
    obtain ⟨st3, h3, h4⟩ := except_bind_ok h2
    obtain ⟨e4, e5⟩ := encode_varint_ok h3
    obtain ⟨e6, e7⟩ := encode_tag_ok h4
    rw [pure_scalar.eq_def, hdt]
    try dsimp only
    rw [hsub]
    try dsimp only
    constructor
    · rw [e6]
      try dsimp only
      rw [e4, e3, e1]
      simp
    · try dsimp only at e5 e7 ⊢
      omega
  case case23 =>
    intro m st hskip u hu ihf ihe r h
    rw [encode_message_impl.eq_def] at h
    try dsimp only at h
    rw [if_pos hskip, hu] at h
    try dsimp only at h
    obtain ⟨st1, h1, h2⟩ := except_bind_ok h
    obtain ⟨e1, e2⟩ := encode_bytes_ok h1
    rw [pure_message.eq_def]
    try dsimp only
    rw [if_pos hskip, hu]
    try dsimp only
    by_cases hext : m.extMode ≠ ExtMode.NONE
    · rw [if_pos hext] at h2 ⊢
      obtain ⟨st2, h3, h4⟩ := except_bind_ok h2
      obtain ⟨e3, e4⟩ := ihe _ _ h3
      obtain ⟨st3, h5, h6⟩ := except_bind_ok h4
      obtain ⟨e5, e6⟩ := ihf _ _ h5
      cases h6
      refine ⟨?_, ?_, ?_⟩
      · rw [e5, e3, e1]; simp
      · try dsimp only; omega
      · try dsimp only
        rw [e5, e3, e1]
        simp [List.length_append]
        all_goals omega
    · rw [if_neg hext] at h2 ⊢
      obtain ⟨st2, h3, h4⟩ := except_bind_ok h2
      cases h3
      obtain ⟨st3, h5, h6⟩ := except_bind_ok h4
      obtain ⟨e5, e6⟩ := ihf _ _ h5
      cases h6
      refine ⟨?_, ?_, ?_⟩
      · rw [e5, e1]; simp
      · try dsimp only; omega
      · try dsimp only
        rw [e5, e1]
        simp [List.length_append]
        all_goals omega
  case case24 =>
    intro m st hskip hu ihf ihe r h
    rw [encode_message_impl.eq_def] at h
    try dsimp only at h
    rw [if_pos hskip, hu] at h
    try dsimp only at h
    obtain ⟨st1, h1, h2⟩ := except_bind_ok h
    cases h1
    rw [pure_message.eq_def]
    try dsimp only
    rw [if_pos hskip, hu]
    try dsimp only
    by_cases hext : m.extMode ≠ ExtMode.NONE
    · rw [if_pos hext] at h2 ⊢
      obtain ⟨st2, h3, h4⟩ := except_bind_ok h2
      obtain ⟨e3, e4⟩ := ihe _ _ h3
      obtain ⟨st3, h5, h6⟩ := except_bind_ok h4
      obtain ⟨e5, e6⟩ := ihf _ _ h5
      cases h6
      refine ⟨?_, ?_, ?_⟩
      · rw [e5, e3]; simp
      · try dsimp only; omega
      · try dsimp only
        rw [e5, e3]
        simp [List.length_append]
        all_goals omega
    · rw [if_neg hext] at h2 ⊢
      obtain ⟨st2, h3, h4⟩ := except_bind_ok h2
      cases h3
      obtain ⟨st3, h5, h6⟩ := except_bind_ok h4
      obtain ⟨e5, e6⟩ := ihf _ _ h5
      cases h6
      refine ⟨?_, ?_, ?_⟩
      · rw [e5]; simp
      · try dsimp only; omega
      · try dsimp only
        rw [e5]
        simp [List.length_append]
        all_goals omega
  case case25 =>
    intro m st hskip ihf ihe r h
    rw [encode_message_impl.eq_def] at h
    try dsimp only at h
    rw [if_neg hskip] at h
    try dsimp only at h
    obtain ⟨st1, h1, h2⟩ := except_bind_ok h
    cases h1
    rw [pure_message.eq_def]
    try dsimp only
    rw [if_neg hskip]
    try dsimp only
    by_cases hext : m.extMode ≠ ExtMode.NONE
    · rw [if_pos hext] at h2 ⊢
      obtain ⟨st2, h3, h4⟩ := except_bind_ok h2
      obtain ⟨e3, e4⟩ := ihe _ _ h3
      obtain ⟨st3, h5, h6⟩ := except_bind_ok h4
      obtain ⟨e5, e6⟩ := ihf _ _ h5
      cases h6
      refine ⟨?_, ?_, ?_⟩
      · rw [e5, e3]; simp
      · try dsimp only; omega
      · try dsimp only
        rw [e5, e3]
        simp [List.length_append]
        all_goals omega
    · rw [if_neg hext] at h2 ⊢
      obtain ⟨st2, h3, h4⟩ := except_bind_ok h2
      cases h3
      obtain ⟨st3, h5, h6⟩ := except_bind_ok h4
      obtain ⟨e5, e6⟩ := ihf _ _ h5
      cases h6
      refine ⟨?_, ?_, ?_⟩
      · rw [e5]; simp
      · try dsimp only; omega
      · try dsimp only
        rw [e5]
        simp [List.length_append]
        all_goals omega
  case case26 =>
    intro mode st st' h
    rw [encode_extwalk.eq_def] at h
    try dsimp only at h
    cases h
    rw [pure_extwalk.eq_def]
    try dsimp only
    simp
  case case27 =>
    intro st fi fv rest sub hsub ihrest ihitem st' h
    rw [encode_extwalk.eq_def] at h
    try dsimp only at h
    rw [if_pos rfl, hsub] at h
    try dsimp only at h
    obtain ⟨st1, h1, h2⟩ := except_bind_ok h
    obtain ⟨e1, e2⟩ := ihitem _ h1
    obtain ⟨e3, e4⟩ := ihrest _ _ h2
    rw [pure_extwalk.eq_def]
    try dsimp only
    rw [if_pos rfl, hsub]
    try dsimp only
    refine ⟨?_, by omega⟩
    rw [e3, e1]
    simp
  case case28 =>
    intro st fi fv rest hsub ihrest st' h
    rw [encode_extwalk.eq_def] at h
    try dsimp only at h
    rw [if_pos rfl, hsub] at h
    try dsimp only at h
    obtain ⟨st1, h1, h2⟩ := except_bind_ok h
    cases h1
    obtain ⟨e3, e4⟩ := ihrest _ _ h2
    rw [pure_extwalk.eq_def]
    try dsimp only
    rw [if_pos rfl, hsub]
    try dsimp only
    refine ⟨?_, by omega⟩
    rw [e3]
    simp
  case case29 =>
    intro mode st fi fv rest hmode ihrest ihfield st' h
    rw [encode_extwalk.eq_def] at h
    try dsimp only at h
    rw [if_neg hmode] at h
    obtain ⟨st1, h1, h2⟩ := except_bind_ok h
    obtain ⟨e1, e2⟩ := ihfield _ h1
    obtain ⟨e3, e4⟩ := ihrest _ _ h2
    rw [pure_extwalk.eq_def]
    try dsimp only
    rw [if_neg hmode]
    refine ⟨?_, by omega⟩
    rw [e3, e1]
    simp
  case case30 =>
    intro f st a ih st' h
    rw [encode_field_impl.eq_def] at h
    try dsimp only at h
    rw [pure_field.eq_def]
    try dsimp only
    exact ih _ h
  case case31 =>
    intro f st a ih st' h
    rw [encode_field_impl.eq_def] at h
    try dsimp only at h
    rw [pure_field.eq_def]
    try dsimp only
    exact ih _ h
  case case32 =>
    intro f st a ih st' h
    rw [encode_field_impl.eq_def] at h
    try dsimp only at h
    rw [pure_field.eq_def]
    try dsimp only
    exact ih _ h
  case case33 =>
    intro f st a ih st' h
    rw [encode_field_impl.eq_def] at h
    try dsimp only at h
    rw [pure_field.eq_def]
    try dsimp only
    exact ih _ h
  case case34 =>
    intro f st a ih st' h
    rw [encode_field_impl.eq_def] at h
    try dsimp only at h
    rw [pure_field.eq_def]
    try dsimp only
    exact ih _ h
  case case35 =>
    intro f st a ih st' h
    rw [encode_field_impl.eq_def] at h
    try dsimp only at h
    rw [pure_field.eq_def]
    try dsimp only
    exact ih _ h
  case case36 =>
    intro f st a ih st' h
    rw [encode_field_impl.eq_def] at h
    try dsimp only at h
    rw [pure_field.eq_def]
    try dsimp only
    exact ih _ h
  case case37 =>
    intro f v st hmap st' h
    rw [encode_map_impl.eq_def] at h
    try dsimp only at h
    rw [hmap] at h
    try dsimp only at h
    cases h
    rw [pure_map.eq_def]
    try dsimp only
    rw [hmap]
    simp
  case case38 =>
    intro f v st kF vF entries hmap hdet ihdet st' h
    rw [encode_map_impl.eq_def] at h
    try dsimp only at h
    rw [hmap] at h
    try dsimp only at h
    rw [if_pos hdet] at h
    rw [pure_map.eq_def]
    try dsimp only
    rw [hmap]
    try dsimp only
    rw [if_pos hdet]
    exact ihdet _ h
  case case39 =>
    intro f v st kF vF entries hmap hdet ihtab st' h
    rw [encode_map_impl.eq_def] at h
    try dsimp only at h
    rw [hmap] at h
    try dsimp only at h
    rw [if_neg hdet] at h
    rw [pure_map.eq_def]
    try dsimp only
    rw [hmap]
    try dsimp only
    rw [if_neg hdet]
    exact ihtab _ h
  case case40 =>
    intro n kF vF st st' h
    rw [encode_mapentries_tab.eq_def] at h
    try dsimp only at h
    cases h
    rw [pure_mapentries_tab.eq_def]
    try dsimp only
    simp
  case case41 =>
    intro n kF vF st k v rest ihent ihrest st' h
    rw [encode_mapentries_tab.eq_def] at h
    try dsimp only at h
    obtain ⟨st1, h1, h2⟩ := except_bind_ok h
    obtain ⟨e1, e2⟩ := ihent _ h1
    obtain ⟨e3, e4⟩ := ihrest _ _ h2
    rw [pure_mapentries_tab.eq_def]
    try dsimp only
    refine ⟨?_, by omega⟩
    rw [e3, e1]
    simp
  case case42 =>
    intro n kF vF entK entV st ihv ihk st' h
    rw [encode_mapentry_impl.eq_def] at h
    try dsimp only at h
    obtain ⟨st1, h1, h2⟩ := except_bind_ok h
    obtain ⟨e1, e2⟩ := ihv _ h1
    obtain ⟨st2, h3, h4⟩ := except_bind_ok h2
    obtain ⟨e3, e4⟩ := ihk _ _ h3
    obtain ⟨st3, h5, h6⟩ := except_bind_ok h4
    obtain ⟨e5, e6⟩ := encode_varint_ok h5
    obtain ⟨e7, e8⟩ := encode_tag_ok h6
    rw [pure_mapentry.eq_def]
    refine ⟨?_, by omega⟩
    have hsz : (pure_scalar c kF entK ++ (pure_scalar c vF entV ++ st.out)).length -
        st.out.length = (pure_scalar c kF entK ++ pure_scalar c vF entV).length := by
      simp [List.length_append]
      all_goals omega
    rw [e7, e5, e3, e1, hsz]
    simp
  case case43 =>
    intro n kF vF st st' h
    rw [encode_mapentries_det.eq_def] at h
    try dsimp only at h
    cases h
    rw [pure_mapentries_det.eq_def]
    try dsimp only
    simp
  case case44 =>
    intro n kF vF st k v rest ihrest ihent st' h
    rw [encode_mapentries_det.eq_def] at h
    try dsimp only at h
    obtain ⟨st1, h1, h2⟩ := except_bind_ok h
    obtain ⟨e1, e2⟩ := ihrest _ h1
    obtain ⟨e3, e4⟩ := ihent _ _ h2
    rw [pure_mapentries_det.eq_def]
    try dsimp only
    refine ⟨?_, by omega⟩
    rw [e3, e1]
    simp
  case case45 =>
    intro f v st hguard st' h
    rw [encode_array_impl.eq_def] at h
    try dsimp only at h
    rw [if_pos hguard] at h
    cases h
    rw [pure_array.eq_def]
    try dsimp only
    rw [if_pos hguard]
    simp
  case case46 =>
    intro f v st hne hdt st' h
    rw [encode_array_impl.eq_def] at h
    try dsimp only at h
    rw [if_neg hne, hdt] at h
    try dsimp only at h
    rw [pure_array.eq_def]
    try dsimp only
    rw [if_neg hne, hdt]
    try dsimp only
    obtain ⟨st1, h1, h2⟩ := except_bind_ok h
    obtain ⟨e1, e2⟩ := encode_fixedarray_impl_ok h1
    by_cases hp : f.packed
    · rw [if_pos hp] at h2 ⊢
      obtain ⟨st2, h3, h4⟩ := except_bind_ok h2
      obtain ⟨e3, e4⟩ := encode_varint_ok h3
      obtain ⟨e5, e6⟩ := encode_tag_ok h4
      refine ⟨?_, by omega⟩
      rw [e5, e3, e1]
      simp [List.length_append]
    · rw [if_neg hp] at h2 ⊢
      cases h2
      exact ⟨by rw [e1], e2⟩
  case case47 =>
    intro f v st hne hdt st' h
    rw [encode_array_impl.eq_def] at h
    try dsimp only at h
    rw [if_neg hne, hdt] at h
    try dsimp only at h
    rw [pure_array.eq_def]
    try dsimp only
    rw [if_neg hne, hdt]
    try dsimp only
    obtain ⟨st1, h1, h2⟩ := except_bind_ok h
    obtain ⟨e1, e2⟩ := encode_fixedarray_impl_ok h1
    by_cases hp : f.packed
    · rw [if_pos hp] at h2 ⊢
      obtain ⟨st2, h3, h4⟩ := except_bind_ok h2
      obtain ⟨e3, e4⟩ := encode_varint_ok h3
      obtain ⟨e5, e6⟩ := encode_tag_ok h4
      refine ⟨?_, by omega⟩
      rw [e5, e3, e1]
      simp [List.length_append]
    · rw [if_neg hp] at h2 ⊢
      cases h2
      exact ⟨by rw [e1], e2⟩
  case case48 =>
    intro f v st hne hdt st' h
    rw [encode_array_impl.eq_def] at h
    try dsimp only at h
    rw [if_neg hne, hdt] at h
    try dsimp only at h
    rw [pure_array.eq_def]
    try dsimp only
    rw [if_neg hne, hdt]
    try dsimp only
    obtain ⟨st1, h1, h2⟩ := except_bind_ok h
    obtain ⟨e1, e2⟩ := encode_fixedarray_impl_ok h1
    by_cases hp : f.packed
    · rw [if_pos hp] at h2 ⊢
      obtain ⟨st2, h3, h4⟩ := except_bind_ok h2
      obtain ⟨e3, e4⟩ := encode_varint_ok h3
      obtain ⟨e5, e6⟩ := encode_tag_ok h4
      refine ⟨?_, by omega⟩
      rw [e5, e3, e1]
      simp [List.length_append]
    · rw [if_neg hp] at h2 ⊢
      cases h2
      exact ⟨by rw [e1], e2⟩
  case case49 =>
    intro f v st hne hdt st' h
    rw [encode_array_impl.eq_def] at h
    try dsimp only at h
    rw [if_neg hne, hdt] at h
    try dsimp only at h
    rw [pure_array.eq_def]
    try dsimp only
    rw [if_neg hne, hdt]
    try dsimp only
    obtain ⟨st1, h1, h2⟩ := except_bind_ok h
    obtain ⟨e1, e2⟩ := encode_fixedarray_impl_ok h1
    by_cases hp : f.packed
    · rw [if_pos hp] at h2 ⊢
      obtain ⟨st2, h3, h4⟩ := except_bind_ok h2
      obtain ⟨e3, e4⟩ := encode_varint_ok h3
      obtain ⟨e5, e6⟩ := encode_tag_ok h4
      refine ⟨?_, by omega⟩
      rw [e5, e3, e1]
      simp [List.length_append]
    · rw [if_neg hp] at h2 ⊢
      cases h2
      exact ⟨by rw [e1], e2⟩
  case case50 =>
    intro f v st hne hdt st' h
    rw [encode_array_impl.eq_def] at h
    try dsimp only at h
    rw [if_neg hne, hdt] at h
    try dsimp only at h
    rw [pure_array.eq_def]
    try dsimp only
    rw [if_neg hne, hdt]
    try dsimp only
    obtain ⟨st1, h1, h2⟩ := except_bind_ok h
    obtain ⟨e1, e2⟩ := encode_fixedarray_impl_ok h1
    by_cases hp : f.packed
    · rw [if_pos hp] at h2 ⊢
      obtain ⟨st2, h3, h4⟩ := except_bind_ok h2
      obtain ⟨e3, e4⟩ := encode_varint_ok h3
      obtain ⟨e5, e6⟩ := encode_tag_ok h4
      refine ⟨?_, by omega⟩
      rw [e5, e3, e1]
      simp [List.length_append]
    · rw [if_neg hp] at h2 ⊢
      cases h2
      exact ⟨by rw [e1], e2⟩
  case case51 =>
    intro f v st hne hdt st' h
    rw [encode_array_impl.eq_def] at h
    try dsimp only at h
    rw [if_neg hne, hdt] at h
    try dsimp only at h
    rw [pure_array.eq_def]
    try dsimp only
    rw [if_neg hne, hdt]
    try dsimp only
    obtain ⟨st1, h1, h2⟩ := except_bind_ok h
    obtain ⟨e1, e2⟩ := encode_fixedarray_impl_ok h1
    by_cases hp : f.packed
    · rw [if_pos hp] at h2 ⊢
      obtain ⟨st2, h3, h4⟩ := except_bind_ok h2
      obtain ⟨e3, e4⟩ := encode_varint_ok h3
      obtain ⟨e5, e6⟩ := encode_tag_ok h4
      refine ⟨?_, by omega⟩
      rw [e5, e3, e1]
      simp [List.length_append]
    · rw [if_neg hp] at h2 ⊢
      cases h2
      exact ⟨by rw [e1], e2⟩
  case case52 =>
    intro f v st hne hdt st' h
    rw [encode_array_impl.eq_def] at h
    try dsimp only at h
    rw [if_neg hne, hdt] at h
    try dsimp only at h
    rw [pure_array.eq_def]
    try dsimp only
    rw [if_neg hne, hdt]
    try dsimp only
    obtain ⟨st1, h1, h2⟩ := except_bind_ok h
    obtain ⟨e1, e2⟩ := encode_varintarray_ok h1
    by_cases hp : f.packed
    · rw [if_pos hp] at h2 ⊢
      obtain ⟨st2, h3, h4⟩ := except_bind_ok h2
      obtain ⟨e3, e4⟩ := encode_varint_ok h3
      obtain ⟨e5, e6⟩ := encode_tag_ok h4
      refine ⟨?_, by omega⟩
      rw [e5, e3, e1]
      simp [List.length_append]
    · rw [if_neg hp] at h2 ⊢
      cases h2
      exact ⟨by rw [e1], e2⟩
  case case53 =>
    intro f v st hne hdt st' h
    rw [encode_array_impl.eq_def] at h
    try dsimp only at h
    rw [if_neg hne, hdt] at h
    try dsimp only at h
    rw [pure_array.eq_def]
    try dsimp only
    rw [if_neg hne, hdt]
    try dsimp only
    obtain ⟨st1, h1, h2⟩ := except_bind_ok h
    obtain ⟨e1, e2⟩ := encode_varintarray_ok h1
    by_cases hp : f.packed
    · rw [if_pos hp] at h2 ⊢
      obtain ⟨st2, h3, h4⟩ := except_bind_ok h2
      obtain ⟨e3, e4⟩ := encode_varint_ok h3
      obtain ⟨e5, e6⟩ := encode_tag_ok h4
      refine ⟨?_, by omega⟩
      rw [e5, e3, e1]
      simp [List.length_append]
    · rw [if_neg hp] at h2 ⊢
      cases h2
      exact ⟨by rw [e1], e2⟩
  case case54 =>
    intro f v st hne hdt st' h
    rw [encode_array_impl.eq_def] at h
    try dsimp only at h
    rw [if_neg hne, hdt] at h
    try dsimp only at h
    rw [pure_array.eq_def]
    try dsimp only
    rw [if_neg hne, hdt]
    try dsimp only
    obtain ⟨st1, h1, h2⟩ := except_bind_ok h
    obtain ⟨e1, e2⟩ := encode_varintarray_ok h1
    by_cases hp : f.packed
    · rw [if_pos hp] at h2 ⊢
      obtain ⟨st2, h3, h4⟩ := except_bind_ok h2
      obtain ⟨e3, e4⟩ := encode_varint_ok h3
      obtain ⟨e5, e6⟩ := encode_tag_ok h4
      refine ⟨?_, by omega⟩
      rw [e5, e3, e1]
      simp [List.length_append]
    · rw [if_neg hp] at h2 ⊢
      cases h2
      exact ⟨by rw [e1], e2⟩
  case case55 =>
    intro f v st hne hdt st' h
    rw [encode_array_impl.eq_def] at h
    try dsimp only at h
    rw [if_neg hne, hdt] at h
    try dsimp only at h
    rw [pure_array.eq_def]
    try dsimp only
    rw [if_neg hne, hdt]
    try dsimp only
    obtain ⟨st1, h1, h2⟩ := except_bind_ok h
    obtain ⟨e1, e2⟩ := encode_varintarray_ok h1
    by_cases hp : f.packed
    · rw [if_pos hp] at h2 ⊢
      obtain ⟨st2, h3, h4⟩ := except_bind_ok h2
      obtain ⟨e3, e4⟩ := encode_varint_ok h3
      obtain ⟨e5, e6⟩ := encode_tag_ok h4
      refine ⟨?_, by omega⟩
      rw [e5, e3, e1]
      simp [List.length_append]
    · rw [if_neg hp] at h2 ⊢
      cases h2
      exact ⟨by rw [e1], e2⟩
  case case56 =>
    intro f v st hne hdt st' h
    rw [encode_array_impl.eq_def] at h
    try dsimp only at h
    rw [if_neg hne, hdt] at h
    try dsimp only at h
    rw [pure_array.eq_def]
    try dsimp only
    rw [if_neg hne, hdt]
    try dsimp only
    obtain ⟨st1, h1, h2⟩ := except_bind_ok h
    obtain ⟨e1, e2⟩ := encode_varintarray_ok h1
    by_cases hp : f.packed
    · rw [if_pos hp] at h2 ⊢
      obtain ⟨st2, h3, h4⟩ := except_bind_ok h2
      obtain ⟨e3, e4⟩ := encode_varint_ok h3
      obtain ⟨e5, e6⟩ := encode_tag_ok h4
      refine ⟨?_, by omega⟩
      rw [e5, e3, e1]
      simp [List.length_append]
    · rw [if_neg hp] at h2 ⊢
      cases h2
      exact ⟨by rw [e1], e2⟩
  case case57 =>
    intro f v st hne hdt st' h
    rw [encode_array_impl.eq_def] at h
    try dsimp only at h
    rw [if_neg hne, hdt] at h
    try dsimp only at h
    rw [pure_array.eq_def]
    try dsimp only
    rw [if_neg hne, hdt]
    try dsimp only
    obtain ⟨st1, h1, h2⟩ := except_bind_ok h
    obtain ⟨e1, e2⟩ := encode_varintarray_ok h1
    by_cases hp : f.packed
    · rw [if_pos hp] at h2 ⊢
      obtain ⟨st2, h3, h4⟩ := except_bind_ok h2
      obtain ⟨e3, e4⟩ := encode_varint_ok h3
      obtain ⟨e5, e6⟩ := encode_tag_ok h4
      refine ⟨?_, by omega⟩
      rw [e5, e3, e1]
      simp [List.length_append]
    · rw [if_neg hp] at h2 ⊢
      cases h2
      exact ⟨by rw [e1], e2⟩
  case case58 =>
    intro f v st hne hdt st' h
    rw [encode_array_impl.eq_def] at h
    try dsimp only at h
    rw [if_neg hne, hdt] at h
    try dsimp only at h
    rw [pure_array.eq_def]
    try dsimp only
    rw [if_neg hne, hdt]
    try dsimp only
    obtain ⟨st1, h1, h2⟩ := except_bind_ok h
    obtain ⟨e1, e2⟩ := encode_varintarray_ok h1
    by_cases hp : f.packed
    · rw [if_pos hp] at h2 ⊢
      obtain ⟨st2, h3, h4⟩ := except_bind_ok h2
      obtain ⟨e3, e4⟩ := encode_varint_ok h3
      obtain ⟨e5, e6⟩ := encode_tag_ok h4
      refine ⟨?_, by omega⟩
      rw [e5, e3, e1]
      simp [List.length_append]
    · rw [if_neg hp] at h2 ⊢
      cases h2
      exact ⟨by rw [e1], e2⟩
  case case59 =>
    intro f v st hne hdt st' h
    rw [encode_array_impl.eq_def] at h
    try dsimp only at h
    rw [if_neg hne, hdt] at h
    try dsimp only at h
    rw [pure_array.eq_def]
    try dsimp only
    rw [if_neg hne, hdt]
    try dsimp only
    obtain ⟨st1, h1, h2⟩ := except_bind_ok h
    obtain ⟨e1, e2⟩ := encode_varintarray_ok h1
    by_cases hp : f.packed
    · rw [if_pos hp] at h2 ⊢
      obtain ⟨st2, h3, h4⟩ := except_bind_ok h2
      obtain ⟨e3, e4⟩ := encode_varint_ok h3
      obtain ⟨e5, e6⟩ := encode_tag_ok h4
      refine ⟨?_, by omega⟩
      rw [e5, e3, e1]
      simp [List.length_append]
    · rw [if_neg hp] at h2 ⊢
      cases h2
      exact ⟨by rw [e1], e2⟩
  case case60 =>
    intro f v st hne hdt st' h
    rw [encode_array_impl.eq_def] at h
    try dsimp only at h
    rw [if_neg hne, hdt] at h
    try dsimp only at h
    rw [pure_array.eq_def]
    try dsimp only
    rw [if_neg hne, hdt]
    try dsimp only
    obtain ⟨e1, e2⟩ := encode_strviewarray_ok h
    exact ⟨by rw [e1], e2⟩
  case case61 =>
    intro f v st hne hdt st' h
    rw [encode_array_impl.eq_def] at h
    try dsimp only at h
    rw [if_neg hne, hdt] at h
    try dsimp only at h
    rw [pure_array.eq_def]
    try dsimp only
    rw [if_neg hne, hdt]
    try dsimp only
    obtain ⟨e1, e2⟩ := encode_strviewarray_ok h
    exact ⟨by rw [e1], e2⟩
  case case62 =>
    intro f v st hne hdt harr st' h
    rw [encode_array_impl.eq_def] at h
    try dsimp only at h
    rw [if_neg hne, hdt] at h
    try dsimp only at h
    rw [harr] at h
    try dsimp only at h
    cases h
    rw [pure_array.eq_def]
    try dsimp only
    rw [if_neg hne, hdt]
    try dsimp only
    rw [harr]
    simp
  case case63 =>
    intro f v st hne hdt msgs harr hd st' h
    rw [encode_array_impl.eq_def] at h
    try dsimp only at h
    rw [if_neg hne, hdt] at h
    try dsimp only at h
    rw [harr] at h
    try dsimp only at h
    rw [if_pos hd] at h
    simp at h
  case case64 =>
    intro f v st hne hdt msgs harr hd ihloop st' h
    rw [encode_array_impl.eq_def] at h
    try dsimp only at h
    rw [if_neg hne, hdt] at h
    try dsimp only at h
    rw [harr] at h
    try dsimp only at h
    rw [if_neg hd] at h
    obtain ⟨st1, h1, h2⟩ := except_bind_ok h
    obtain ⟨e1, e2⟩ := ihloop _ h1
    cases h2
    rw [pure_array.eq_def]
    try dsimp only
    rw [if_neg hne, hdt]
    try dsimp only
    rw [harr]
    try dsimp only
    try dsimp only at e1 e2
    refine ⟨?_, ?_⟩
    · try dsimp only
      rw [e1]
    · try dsimp only
      omega
  case case65 =>
    intro f v st hne hdt harr st' h
    rw [encode_array_impl.eq_def] at h
    try dsimp only at h
    rw [if_neg hne, hdt] at h
    try dsimp only at h
    rw [harr] at h
    try dsimp only at h
    cases h
    rw [pure_array.eq_def]
    try dsimp only
    rw [if_neg hne, hdt]
    try dsimp only
    rw [harr]
    simp
  case case66 =>
    intro f v st hne hdt msgs harr hd st' h
    rw [encode_array_impl.eq_def] at h
    try dsimp only at h
    rw [if_neg hne, hdt] at h
    try dsimp only at h
    rw [harr] at h
    try dsimp only at h
    rw [if_pos hd] at h
    simp at h
  case case67 =>
    intro f v st hne hdt msgs harr hd ihloop st' h
    rw [encode_array_impl.eq_def] at h
    try dsimp only at h
    rw [if_neg hne, hdt] at h
    try dsimp only at h
    rw [harr] at h
    try dsimp only at h
    rw [if_neg hd] at h
    obtain ⟨st1, h1, h2⟩ := except_bind_ok h
    obtain ⟨e1, e2⟩ := ihloop _ h1
    cases h2
    rw [pure_array.eq_def]
    try dsimp only
    rw [if_neg hne, hdt]
    try dsimp only
    rw [harr]
    try dsimp only
    try dsimp only at e1 e2
    refine ⟨?_, ?_⟩
    · try dsimp only
      rw [e1]
    · try dsimp only
      omega
  case case68 =>
    intro num st st' h
    rw [encode_msgarray.eq_def] at h
    try dsimp only at h
    cases h
    rw [pure_msgarray.eq_def]
    try dsimp only
    simp
  case case69 =>
    intro num st m rest ihrest ihmsg st' h
    rw [encode_msgarray.eq_def] at h
    try dsimp only at h
    obtain ⟨st1, h1, h2⟩ := except_bind_ok h
    obtain ⟨e1, e2⟩ := ihrest _ h1
    obtain ⟨r, h3, h4⟩ := except_bind_ok h2
    obtain ⟨st2, sz⟩ := r
    obtain ⟨e3, e4, e5⟩ := ihmsg _ _ h3
    try dsimp only at h4 e3 e4 e5
    obtain ⟨st3, h5, h6⟩ := except_bind_ok h4
    obtain ⟨e6, e7⟩ := encode_varint_ok h5
    obtain ⟨e8, e9⟩ := encode_tag_ok h6
    rw [pure_msgarray.eq_def]
    try dsimp only
    refine ⟨?_, by omega⟩
    rw [e8, e6, e3, e1, e5]
    simp
  case case70 =>
    intro num st st' h
    rw [encode_grouparray.eq_def] at h
    try dsimp only at h
    cases h
    rw [pure_grouparray.eq_def]
    try dsimp only
    simp
  case case71 =>
    intro num st m rest ihrest ihmsg st' h
    rw [encode_grouparray.eq_def] at h
    try dsimp only at h
    obtain ⟨st1, h1, h2⟩ := except_bind_ok h
    obtain ⟨e1, e2⟩ := ihrest _ h1
    obtain ⟨st2, h3, h4⟩ := except_bind_ok h2
    obtain ⟨e3, e4⟩ := encode_tag_ok h3
    obtain ⟨r, h5, h6⟩ := except_bind_ok h4
    obtain ⟨st3, sz⟩ := r
    obtain ⟨e5, e6, e7⟩ := ihmsg _ _ h5
    try dsimp only at h6 e5 e6
    obtain ⟨e8, e9⟩ := encode_tag_ok h6
    rw [pure_grouparray.eq_def]
    try dsimp only
    refine ⟨?_, by omega⟩
    rw [e8, e5, e3, e1]
    simp
  case case72 =>
    intro num m st ihmsg st' h
    rw [encode_msgset_item.eq_def] at h
    try dsimp only at h
    obtain ⟨st1, h1, h2⟩ := except_bind_ok h
    obtain ⟨e1, e2⟩ := encode_tag_ok h1
    obtain ⟨r, h3, h4⟩ := except_bind_ok h2
    obtain ⟨st2, sz⟩ := r
    obtain ⟨e3, e4, e5⟩ := ihmsg _ _ h3
    try dsimp only at h4 e3 e4 e5
    obtain ⟨st3, h5, h6⟩ := except_bind_ok h4
    obtain ⟨e6, e7⟩ := encode_varint_ok h5
    obtain ⟨st4, h7, h8⟩ := except_bind_ok h6
    obtain ⟨e8, e9⟩ := encode_tag_ok h7
    obtain ⟨st5, h9, h10⟩ := except_bind_ok h8
    obtain ⟨e10, e11⟩ := encode_varint_ok h9
    obtain ⟨st6, h11, h12⟩ := except_bind_ok h10
    obtain ⟨e12, e13⟩ := encode_tag_ok h11
    obtain ⟨e14, e15⟩ := encode_tag_ok h12
    rw [pure_msgset_item.eq_def]
    refine ⟨?_, by omega⟩
    rw [e14, e12, e10, e8, e6, e3, e1, e5]
    simp
  case case73 =>
    intro hb oo st st' h
    rw [encode_fieldwalk.eq_def] at h
    try dsimp only at h
    cases h
    rw [pure_fieldwalk.eq_def]
    try dsimp only
    simp
  case case74 =>
    intro hb oo st fi fv rest ihrest ihfield st' h
    rw [encode_fieldwalk.eq_def] at h
    try dsimp only at h
    obtain ⟨st1, h1, h2⟩ := except_bind_ok h
    obtain ⟨e1, e2⟩ := ihrest _ h1
    rw [pure_fieldwalk.eq_def]
    try dsimp only
    by_cases hs : encode_shouldencode hb oo fi fv
    · rw [if_pos hs] at h2 ⊢
      obtain ⟨e3, e4⟩ := ihfield _ _ h2
      refine ⟨?_, by omega⟩
      rw [e3, e1]
      simp
    · rw [if_neg hs] at h2 ⊢
      cases h2
      refine ⟨?_, by omega⟩
      rw [e1]
      simp

/-! ### Projections of the refinement -/

theorem encode_scalar_refines {c : EncCtx} {f : FieldInfo} {v : FieldVal}
    {st st' : EncState} (h : encode_scalar_impl c f v st = .ok st') :
    st'.out = pure_scalar c f v ++ st.out ∧ st'.depth = st.depth :=
  (enc_refines c).1 f v st st' h

theorem encode_message_refines {c : EncCtx} {m : UMsg} {st : EncState}
    {r : EncState × Nat} (h : encode_message_impl c m st = .ok r) :
    r.1.out = pure_message c m ++ st.out ∧ r.1.depth = st.depth ∧
      r.2 = (pure_message c m).length :=
  (enc_refines c).2.1 m st r h

theorem encode_field_refines {c : EncCtx} {f : FieldInfo} {v : FieldVal}
    {st st' : EncState} (h : encode_field_impl c f v st = .ok st') :
    st'.out = pure_field c f v ++ st.out ∧ st'.depth = st.depth :=
  (enc_refines c).2.2.2.1 f v st st' h

theorem encode_map_refines {c : EncCtx} {f : FieldInfo} {v : FieldVal}
    {st st' : EncState} (h : encode_map_impl c f v st = .ok st') :
    st'.out = pure_map c f v ++ st.out ∧ st'.depth = st.depth :=
  (enc_refines c).2.2.2.2.1 f v st st' h

theorem encode_array_refines {c : EncCtx} {f : FieldInfo} {v : FieldVal}
    {st st' : EncState} (h : encode_array_impl c f v st = .ok st') :
    st'.out = pure_array c f v ++ st.out ∧ st'.depth = st.depth :=
  (enc_refines c).2.2.2.2.2.2.2.2.1 f v st st' h

theorem encode_fieldwalk_refines {c : EncCtx} {hb : List Nat}
    {oo : List (Int × Nat)} {flds : List (FieldInfo × FieldVal)}
    {st st' : EncState} (h : encode_fieldwalk c hb oo flds st = .ok st') :
    st'.out = pure_fieldwalk c hb oo flds ++ st.out ∧ st'.depth = st.depth :=
  (enc_refines c).2.2.2.2.2.2.2.2.2.2.2.2 hb oo flds st st' h

/-! ### Success of the primitives under a never-failing allocator -/

theorem encode_growbuffer_total {c : EncCtx} (hok : ∀ n, c.upb_malloc_ok n = true)
    (st : EncState) (bytes : Nat) :
    ∃ st', encode_growbuffer c st bytes = .ok st' := by
  unfold encode_growbuffer
  dsimp only
  rw [hok]
  exact ⟨_, by rw [if_pos rfl]⟩

theorem encode_reserve_total {c : EncCtx} (hok : ∀ n, c.upb_malloc_ok n = true)
    (st : EncState) (bytes : Nat) :
    ∃ st', encode_reserve c st bytes = .ok st' := by
  unfold encode_reserve
  split
  · exact encode_growbuffer_total hok st bytes
  · exact ⟨st, rfl⟩

theorem encode_bytes_total {c : EncCtx} (hok : ∀ n, c.upb_malloc_ok n = true)
    (st : EncState) (data : List Nat) :
    ∃ st', encode_bytes c st data = .ok st' := by
  unfold encode_bytes
  split
  · exact ⟨st, rfl⟩
  · obtain ⟨st1, h1⟩ := encode_reserve_total hok st data.length
    exact ⟨_, by rw [h1]; rfl⟩

theorem encode_longvarint_total {c : EncCtx} (hok : ∀ n, c.upb_malloc_ok n = true)
    (st : EncState) (val : Nat) :
    ∃ st', encode_longvarint c st val = .ok st' := by
  unfold encode_longvarint
  obtain ⟨st1, h1⟩ := encode_reserve_total hok st 16
  exact ⟨_, by rw [h1]; rfl⟩

theorem encode_varint_total {c : EncCtx} (hok : ∀ n, c.upb_malloc_ok n = true)
    (st : EncState) (val : Nat) :
    ∃ st', encode_varint c st val = .ok st' := by
  unfold encode_varint
  split
  · exact ⟨_, rfl⟩
  · exact encode_longvarint_total hok st val

theorem encode_tag_total {c : EncCtx} (hok : ∀ n, c.upb_malloc_ok n = true)
    (st : EncState) (number wt : Nat) :
    ∃ st', encode_tag c st number wt = .ok st' :=
  encode_varint_total hok st _

theorem encode_fixed64_total {c : EncCtx} (hok : ∀ n, c.upb_malloc_ok n = true)
    (st : EncState) (val : Nat) :
    ∃ st', encode_fixed64 c st val = .ok st' :=
  encode_bytes_total hok st _

theorem encode_fixed32_total {c : EncCtx} (hok : ∀ n, c.upb_malloc_ok n = true)
    (st : EncState) (val : Nat) :
    ∃ st', encode_fixed32 c st val = .ok st' :=
  encode_bytes_total hok st _

/-- A scalar of non-sub-message type always encodes successfully when the
allocator never fails. -/
theorem encode_scalar_total {c : EncCtx} (hok : ∀ n, c.upb_malloc_ok n = true)
    (f : FieldInfo) (v : FieldVal) (st : EncState)
    (h1 : f.descriptortype ≠ .GROUP) (h2 : f.descriptortype ≠ .MESSAGE) :
    ∃ st', encode_scalar_impl c f v st = .ok st' := by
  rw [encode_scalar_impl.eq_def]
  cases hdt : f.descriptortype <;> try exact absurd hdt (by assumption)
  all_goals try dsimp only
  all_goals (first
    | (obtain ⟨st1, e1⟩ := encode_varint_total hok st _
       obtain ⟨st2, e2⟩ := encode_tag_total hok st1 f.number _
       exact ⟨st2, by rw [e1]; simpa [Bind.bind, Except.bind] using e2⟩)
    | (obtain ⟨st1, e1⟩ := encode_fixed64_total hok st _
       obtain ⟨st2, e2⟩ := encode_tag_total hok st1 f.number _
       first
        | exact ⟨st2, by rw [encode_double, e1]; simpa [Bind.bind, Except.bind] using e2⟩
        | exact ⟨st2, by rw [e1]; simpa [Bind.bind, Except.bind] using e2⟩)
    | (obtain ⟨st1, e1⟩ := encode_fixed32_total hok st _
       obtain ⟨st2, e2⟩ := encode_tag_total hok st1 f.number _
       first
        | exact ⟨st2, by rw [encode_float, e1]; simpa [Bind.bind, Except.bind] using e2⟩
        | exact ⟨st2, by rw [e1]; simpa [Bind.bind, Except.bind] using e2⟩)
    | (obtain ⟨st1, e1⟩ := encode_bytes_total hok st (strVal v)
       obtain ⟨st2, e2⟩ := encode_varint_total hok st1 (strVal v).length
       obtain ⟨st3, e3⟩ := encode_tag_total hok st2 f.number _
       exact ⟨st3, by rw [e1]; simp [Bind.bind, Except.bind]; rw [e2]
                      simpa [Bind.bind, Except.bind] using e3⟩))

/-- A field none of whose siblings is present writes nothing and cannot
fail: the reverse walk returns the state unchanged. -/
theorem encode_fieldwalk_nothing {c : EncCtx} {hb : List Nat}
    {oo : List (Int × Nat)} :
    ∀ {flds : List (FieldInfo × FieldVal)} {st : EncState},
    (∀ fv ∈ flds, encode_shouldencode hb oo fv.1 fv.2 = false) →
    encode_fieldwalk c hb oo flds st = .ok st := by
  intro flds
  induction flds with
  | nil =>
    intro st h
    rw [encode_fieldwalk.eq_def]
  | cons fv rest ih =>
    intro st h
    obtain ⟨fi, fv'⟩ := fv
    rw [encode_fieldwalk.eq_def]
    try dsimp only
    rw [ih (fun x hx => h x (List.mem_cons_of_mem _ hx))]
    have hs := h (fi, fv') (List.mem_cons_self _ _)
    simp only at hs
    simp [Bind.bind, Except.bind, hs]

/-! ### Top-level entry -/

/-- The context initialisation of `upb_encode_ex`: NULL buffer and the
depth budget from the upper 16 bits of the options word
(`(unsigned)options >> 16`), defaulting to 64 when those bits are zero. -/
def upb_encode_init (c : EncCtx) : EncState :=
  { cap := 0, out := [],
    depth := if c.options >>> 16 = 0 then 64 else ((c.options >>> 16 : Nat) : Int) }

/-- `upb_encode_ex`: initialize the context, run the message emitter; on
error return NULL (`none`) with size 0; a zero-size success returns the
non-NULL one-byte static placeholder `&ch` (modelled as `some []`),
otherwise the buffer contents.  The first component is the returned
pointer (with the bytes it points at), the second `*size`. -/
def upb_encode_ex (c : EncCtx) (m : UMsg) : Option (List Nat) × Nat :=
  match encode_message_impl c m (upb_encode_init c) with
  | .error _ => (none, 0)
  | .ok (st, _) =>
    let size := st.out.length
    if size = 0 then (some [], 0)
    else (some st.out, size)

end Upb

namespace Upb

/-! ### Messages with nothing to write -/

/-- A message with no unknown blob, no extensions and no present field
writes nothing and reports size 0; nothing can fail on this path. -/
theorem encode_message_nothing {c : EncCtx} {m : UMsg} {st : EncState}
    (hu : m.unknown = none) (he : m.exts = [])
    (hf : ∀ fv ∈ m.fields, encode_shouldencode m.hasbits m.oneofs fv.1 fv.2 = false) :
    encode_message_impl c m st = .ok (st, 0) := by
  have hfw : encode_fieldwalk c m.hasbits m.oneofs m.fields st = .ok st :=
    encode_fieldwalk_nothing hf
  rw [encode_message_impl.eq_def]
  try dsimp only
  rw [hu, he]
  simp [hfw, Bind.bind, Except.bind, encode_extwalk]


/-! ### Claim theorems: error contract, empty message, depth restoration -/

/-- C6: When the message emitter fails (the only two error kinds in the
core being allocation failure and depth exhaustion), `upb_encode_ex`
returns the NULL pointer with `*size = 0`; on success it returns a
non-NULL pointer whose size is exactly the byte count of the returned
buffer — never a partial buffer. -/
theorem upb_encode_error_contract (c : EncCtx) (m : UMsg) :
    (∀ e : EncErr, e = .oom ∨ e = .maxDepth) ∧
    (∀ e, encode_message_impl c m (upb_encode_init c) = .error e →
      upb_encode_ex c m = (none, 0)) ∧
    (∀ r, encode_message_impl c m (upb_encode_init c) = .ok r →
      (upb_encode_ex c m).1.isSome ∧
        (upb_encode_ex c m).2 = ((upb_encode_ex c m).1.getD []).length) := by
  refine ⟨fun e => by cases e <;> simp, ?_, ?_⟩
  · intro e he
    unfold upb_encode_ex
    rw [he]
  · intro r hr
    unfold upb_encode_ex
    rw [hr]
    obtain ⟨st, sz⟩ := r
    by_cases hz : st.out.length = 0
    · simp [hz]
    · simp [hz]

theorem upb_encode_error_contract_witness :
    (∀ e : EncErr, e = .oom ∨ e = .maxDepth) ∧
    (∀ e, encode_message_impl ⟨fun _ => true, 0, false⟩
        (UMsg.mk none [] [] .NONE [] [])
        (upb_encode_init ⟨fun _ => true, 0, false⟩) = .error e →
      upb_encode_ex ⟨fun _ => true, 0, false⟩
        (UMsg.mk none [] [] .NONE [] []) = (none, 0)) ∧
    (∀ r, encode_message_impl ⟨fun _ => true, 0, false⟩
        (UMsg.mk none [] [] .NONE [] [])
        (upb_encode_init ⟨fun _ => true, 0, false⟩) = .ok r →
      (upb_encode_ex ⟨fun _ => true, 0, false⟩
        (UMsg.mk none [] [] .NONE [] [])).1.isSome ∧
        (upb_encode_ex ⟨fun _ => true, 0, false⟩
          (UMsg.mk none [] [] .NONE [] [])).2 =
          ((upb_encode_ex ⟨fun _ => true, 0, false⟩
            (UMsg.mk none [] [] .NONE [] [])).1.getD []).length) :=
  upb_encode_error_contract ⟨fun _ => true, 0, false⟩ (UMsg.mk none [] [] .NONE [] [])

/-- C7: A message with no present fields, no extensions and no unknown
blob encodes successfully to zero bytes, and the entry returns a non-NULL
placeholder pointer with size 0 (success distinguishable from the NULL
failure return). -/
theorem upb_encode_empty_success (c : EncCtx) (m : UMsg)
    (hu : m.unknown = none) (he : m.exts = [])
    (hf : ∀ fv ∈ m.fields, encode_shouldencode m.hasbits m.oneofs fv.1 fv.2 = false) :
    upb_encode_ex c m = (some [], 0) ∧ (upb_encode_ex c m).1.isSome := by
  have h : encode_message_impl c m (upb_encode_init c) =
      .ok (upb_encode_init c, 0) := encode_message_nothing hu he hf
  unfold upb_encode_ex
  rw [h]
  simp [upb_encode_init]

theorem upb_encode_empty_success_witness :
    upb_encode_ex ⟨fun _ => true, 0, false⟩
      (UMsg.mk none [] [] .NONE
        [(⟨1, .BOOL, false, 0⟩, .prim 0), (⟨2, .INT32, false, 0⟩, .prim 0)] []) =
      (some [], 0) ∧
    (upb_encode_ex ⟨fun _ => true, 0, false⟩
      (UMsg.mk none [] [] .NONE
        [(⟨1, .BOOL, false, 0⟩, .prim 0), (⟨2, .INT32, false, 0⟩, .prim 0)] [])).1.isSome :=
  upb_encode_empty_success _ _ rfl rfl (by decide)

/-- C10: On every successful return of a field emitter — scalar, repeated
or the mode dispatch — the depth counter equals its value on entry: the
budget bounds nesting along a path and is not consumed by siblings. -/
theorem depth_restored_on_return (c : EncCtx) (f : FieldInfo) (v : FieldVal)
    (st st' : EncState) :
    (encode_scalar_impl c f v st = .ok st' → st'.depth = st.depth) ∧
    (encode_array_impl c f v st = .ok st' → st'.depth = st.depth) ∧
    (encode_field_impl c f v st = .ok st' → st'.depth = st.depth) :=
  ⟨fun h => (encode_scalar_refines h).2, fun h => (encode_array_refines h).2,
   fun h => (encode_field_refines h).2⟩

/-- Witness for C10: the BOOL scalar at value 1 really encodes (forward
bytes `08 01`, buffer grown to 128), the array emitter on a non-array slot
really returns its input state, and both returns preserve the depth. -/
theorem depth_restored_on_return_witness :
    encode_scalar_impl ⟨fun _ => true, 0, false⟩ ⟨1, .BOOL, false, 0⟩ (.prim 1)
      ⟨0, [], 64⟩ = .ok ⟨128, [8, 1], 64⟩ ∧
    encode_array_impl ⟨fun _ => true, 0, false⟩ ⟨1, .BOOL, false, 0⟩ (.prim 1)
      ⟨0, [], 64⟩ = .ok ⟨0, [], 64⟩ ∧
    encode_field_impl ⟨fun _ => true, 0, false⟩ ⟨1, .BOOL, false, 0⟩ (.prim 1)
      ⟨0, [], 64⟩ = .ok ⟨128, [8, 1], 64⟩ ∧
    (⟨128, [8, 1], 64⟩ : EncState).depth = (⟨0, [], 64⟩ : EncState).depth ∧
    (⟨0, [], 64⟩ : EncState).depth = (⟨0, [], 64⟩ : EncState).depth := by
  have hscalar : encode_scalar_impl ⟨fun _ => true, 0, false⟩
      ⟨1, .BOOL, false, 0⟩ (.prim 1) ⟨0, [], 64⟩ = .ok ⟨128, [8, 1], 64⟩ := by
    rw [encode_scalar_impl.eq_def]
    simp [primVal, encode_varint, encode_longvarint, encode_reserve,
      encode_growbuffer, upb_roundup_pow2, upb_roundup_pow2_go, encode_tag,
      encode_varint64, Bind.bind, Except.bind, UPB_WIRE_TYPE_VARINT]
  have harray : encode_array_impl ⟨fun _ => true, 0, false⟩
      ⟨1, .BOOL, false, 0⟩ (.prim 1) ⟨0, [], 64⟩ = .ok ⟨0, [], 64⟩ := by
    rw [encode_array_impl.eq_def]
    rfl
  have hfield : encode_field_impl ⟨fun _ => true, 0, false⟩
      ⟨1, .BOOL, false, 0⟩ (.prim 1) ⟨0, [], 64⟩ = .ok ⟨128, [8, 1], 64⟩ := by
    rw [encode_field_impl.eq_def]
    exact hscalar
  exact ⟨hscalar, harray, hfield,
    (depth_restored_on_return ⟨fun _ => true, 0, false⟩ ⟨1, .BOOL, false, 0⟩
      (.prim 1) ⟨0, [], 64⟩ ⟨128, [8, 1], 64⟩).1 hscalar,
    (depth_restored_on_return ⟨fun _ => true, 0, false⟩ ⟨1, .BOOL, false, 0⟩
      (.prim 1) ⟨0, [], 64⟩ ⟨0, [], 64⟩).2.1 harray⟩

/-! ### Depth: chains of nested messages -/

def chainField : FieldInfo := ⟨1, .MESSAGE, false, 0⟩

/-- A chain of `n + 1` nested messages: `chainMsg 0` is a leaf, and
`chainMsg (n+1)` has one message-typed field holding `chainMsg n`. -/
def chainMsg : Nat → UMsg
  | 0 => UMsg.mk none [] [] .NONE [] []
  | n + 1 => UMsg.mk none [] [] .NONE [(chainField, .subm (some (chainMsg n)))] []

theorem chain_err (c : EncCtx) :
    ∀ (n : Nat) (st : EncState), 0 < st.depth → st.depth ≤ (n : Int) →
    encode_message_impl c (chainMsg n) st = .error .maxDepth := by
  intro n
  induction n with
  | zero =>
    intro st h1 h2
    simp at h2
    omega
  | succ n ih =>
    intro st h1 h2
    rw [chainMsg, encode_message_impl.eq_def]
    simp only [UMsg.unknown, UMsg.hasbits, UMsg.oneofs, UMsg.extMode, UMsg.fields,
      UMsg.exts]
    have hfw : encode_fieldwalk c [] [] [(chainField, .subm (some (chainMsg n)))] st =
        .error .maxDepth := by
      rw [encode_fieldwalk.eq_def]
      try dsimp only
      rw [encode_fieldwalk.eq_def]
      try dsimp only
      have hs : encode_shouldencode [] [] chainField (.subm (some (chainMsg n))) = true := rfl
      simp only [Bind.bind, Except.bind, hs, if_pos]
      rw [encode_field_impl.eq_def]
      try dsimp only
      rw [encode_scalar_impl.eq_def]
      have hdt : chainField.descriptortype = DescType.MESSAGE := rfl
      rw [hdt]
      try dsimp only
      simp only [submVal]
      by_cases hd : st.depth - 1 = 0
      · rw [if_pos hd]
      · rw [if_neg hd]
        have := ih { st with depth := st.depth - 1 } (by simp; omega) (by simp; omega)
        rw [this]
        simp [Bind.bind, Except.bind]
    simp [Bind.bind, Except.bind, hfw]


theorem chain_ok (c : EncCtx) (hok : ∀ k, c.upb_malloc_ok k = true) :
    ∀ (n : Nat) (st : EncState), (n : Int) < st.depth →
    ∃ r, encode_message_impl c (chainMsg n) st = .ok r := by
  intro n
  induction n with
  | zero =>
    intro st _
    exact ⟨(st, 0), encode_message_nothing rfl rfl
      (by intro fv hfv; rw [chainMsg] at hfv; simp [UMsg.fields] at hfv)⟩
  | succ n ih =>
    intro st hlt
    obtain ⟨r, hr⟩ := ih { st with depth := st.depth - 1 } (by simp; push_cast at hlt ⊢; omega)
    obtain ⟨st1, sz⟩ := r
    obtain ⟨st2, hv⟩ := encode_varint_total hok st1 sz
    obtain ⟨st3, ht⟩ :=
      encode_tag_total hok { st2 with depth := st2.depth + 1 } chainField.number
        UPB_WIRE_TYPE_DELIMITED
    have hd : ¬ st.depth - 1 = 0 := by push_cast at hlt; omega
    have hscalar : encode_scalar_impl c chainField (.subm (some (chainMsg n))) st =
        .ok st3 := by
      rw [encode_scalar_impl.eq_def]
      have hdt : chainField.descriptortype = DescType.MESSAGE := rfl
      rw [hdt]
      try dsimp only
      simp only [submVal]
      rw [if_neg hd]
      rw [hr]
      simp only [Bind.bind, Except.bind]
      rw [hv]
      simp only
      exact ht
    have hfw : encode_fieldwalk c [] [] [(chainField, .subm (some (chainMsg n)))] st =
        .ok st3 := by
      rw [encode_fieldwalk.eq_def]
      try dsimp only
      rw [encode_fieldwalk.eq_def]
      try dsimp only
      have hs : encode_shouldencode [] [] chainField (.subm (some (chainMsg n))) = true := rfl
      simp only [Bind.bind, Except.bind, hs, if_pos]
      rw [encode_field_impl.eq_def]
      try dsimp only
      exact hscalar
    refine ⟨(st3, st3.out.length - st.out.length), ?_⟩
    rw [chainMsg, encode_message_impl.eq_def]
    simp only [UMsg.unknown, UMsg.hasbits, UMsg.oneofs, UMsg.extMode, UMsg.fields,
      UMsg.exts]
    simp [Bind.bind, Except.bind, hfw]


/-- C4: With the depth budget `D` taken from the upper 16 bits of the
options word (64 when those bits are zero), a chain of `D + 1` nested
messages (`chainMsg D`) fails with max-depth — also visible as the NULL
return of `upb_encode_ex` — while a chain of `D` messages succeeds. -/
theorem depth_budget_chain (options : Nat) (hlt : options < 2 ^ 32) :
    (encode_message_impl ⟨fun _ => true, options, false⟩
      (chainMsg (if options >>> 16 = 0 then 64 else options >>> 16))
      (upb_encode_init ⟨fun _ => true, options, false⟩) = .error .maxDepth) ∧
    upb_encode_ex ⟨fun _ => true, options, false⟩
      (chainMsg (if options >>> 16 = 0 then 64 else options >>> 16)) = (none, 0) ∧
    (upb_encode_ex ⟨fun _ => true, options, false⟩
      (chainMsg ((if options >>> 16 = 0 then 64 else options >>> 16) - 1))).1.isSome := by
  set D : Nat := if options >>> 16 = 0 then 64 else options >>> 16 with hD
  have hDpos : 0 < D := by
    rw [hD]
    split <;> omega
  have hdepth : (upb_encode_init ⟨fun _ => true, options, false⟩).depth = (D : Int) := by
    simp only [upb_encode_init, hD]
    split <;> simp [*]
  have herr := chain_err ⟨fun _ => true, options, false⟩ D
    (upb_encode_init ⟨fun _ => true, options, false⟩)
    (by rw [hdepth]; exact_mod_cast hDpos) (by rw [hdepth])
  refine ⟨herr, ?_, ?_⟩
  · unfold upb_encode_ex
    rw [herr]
  · obtain ⟨r, hr⟩ := chain_ok ⟨fun _ => true, options, false⟩ (fun _ => rfl) (D - 1)
      (upb_encode_init ⟨fun _ => true, options, false⟩)
      (by rw [hdepth]; push_cast; omega)
    unfold upb_encode_ex
    rw [hr]
    obtain ⟨st, sz⟩ := r
    by_cases hz : st.out.length = 0 <;> simp [hz]

theorem depth_budget_chain_witness :
    ((encode_message_impl ⟨fun _ => true, 0, false⟩
      (chainMsg (if 0 >>> 16 = 0 then 64 else 0 >>> 16))
      (upb_encode_init ⟨fun _ => true, 0, false⟩) = .error .maxDepth) ∧
    upb_encode_ex ⟨fun _ => true, 0, false⟩
      (chainMsg (if 0 >>> 16 = 0 then 64 else 0 >>> 16)) = (none, 0) ∧
    (upb_encode_ex ⟨fun _ => true, 0, false⟩
      (chainMsg ((if 0 >>> 16 = 0 then 64 else 0 >>> 16) - 1))).1.isSome) ∧
    (0 : Nat) < 2 ^ 32 :=
  ⟨depth_budget_chain 0 (by norm_num), by norm_num⟩


/-! ### Success for one-field messages -/

theorem encode_message_single_total (c : EncCtx)
    (hok : ∀ k, c.upb_malloc_ok k = true) (hb : List Nat) (oo : List (Int × Nat))
    (f : FieldInfo) (v : FieldVal) (st : EncState)
    (h1 : f.descriptortype ≠ .GROUP) (h2 : f.descriptortype ≠ .MESSAGE)
    (hv : (∃ bits, v = .prim bits) ∨ (∃ sdata, v = .strv sdata)) :
    ∃ r, encode_message_impl c (UMsg.mk none hb oo .NONE [(f, v)] []) st = .ok r := by
  by_cases hs : encode_shouldencode hb oo f v
  · obtain ⟨st', hsc⟩ := encode_scalar_total hok f v st h1 h2
    have hfi : encode_field_impl c f v st = .ok st' := by
      rw [encode_field_impl.eq_def]
      rcases hv with ⟨bits, rfl⟩ | ⟨sdata, rfl⟩ <;> exact hsc
    have hfw : encode_fieldwalk c hb oo [(f, v)] st = .ok st' := by
      rw [encode_fieldwalk.eq_def]
      try dsimp only
      rw [encode_fieldwalk.eq_def]
      try dsimp only
      simp only [Bind.bind, Except.bind, hs, if_pos]
      exact hfi
    refine ⟨(st', st'.out.length - st.out.length), ?_⟩
    rw [encode_message_impl.eq_def]
    simp only [UMsg.unknown, UMsg.hasbits, UMsg.oneofs, UMsg.extMode, UMsg.fields,
      UMsg.exts]
    simp [Bind.bind, Except.bind, hfw]
  · exact ⟨(st, 0), encode_message_nothing rfl rfl (by
      intro fv hfv
      simp only [UMsg.fields, List.mem_singleton] at hfv
      subst hfv
      simpa using hs)⟩

theorem neg1_pure_eval :
    pure_message ⟨fun _ => true, 0, false⟩
      (UMsg.mk none [] [] .NONE [(⟨1, .INT32, false, 0⟩, .prim 4294967295)] []) =
      [8, 255, 255, 255, 255, 255, 255, 255, 255, 255, 1] := by
  simp [pure_message, pure_fieldwalk, pure_field, pure_scalar,
    encode_shouldencode, encode_varint64, contByte_eq, sext32, primVal, pure_tag,
    UMsg.unknown, UMsg.hasbits, UMsg.oneofs, UMsg.extMode, UMsg.fields, UMsg.exts,
    UPB_ENCODE_SKIPUNKNOWN, UPB_WIRE_TYPE_VARINT]

theorem upb_encode_ex_ok (c : EncCtx) (m : UMsg) (st' : EncState) (sz : Nat)
    (h : encode_message_impl c m (upb_encode_init c) = .ok (st', sz))
    (hne : st'.out.length ≠ 0) :
    upb_encode_ex c m = (some st'.out, st'.out.length) := by
  unfold upb_encode_ex
  rw [h]
  simp [hne]

theorem neg1_concrete :
    upb_encode_ex ⟨fun _ => true, 0, false⟩
      (UMsg.mk none [] [] .NONE [(⟨1, .INT32, false, 0⟩, .prim 4294967295)] []) =
      (some [8, 255, 255, 255, 255, 255, 255, 255, 255, 255, 1], 11) := by
  obtain ⟨r, hr⟩ := encode_message_single_total ⟨fun _ => true, 0, false⟩
    (fun _ => rfl) [] [] ⟨1, .INT32, false, 0⟩ (.prim 4294967295)
    (upb_encode_init ⟨fun _ => true, 0, false⟩) (by simp) (by simp)
    (Or.inl ⟨_, rfl⟩)
  obtain ⟨st', sz⟩ := r
  obtain ⟨e1, e2, e3⟩ := encode_message_refines hr
  rw [neg1_pure_eval] at e1
  simp only [upb_encode_init, List.append_nil] at e1
  rw [upb_encode_ex_ok _ _ _ _ hr (by rw [e1]; norm_num), e1]
  norm_num


/-- C3: a negative `int32` value (bit pattern in the top half of the 32-bit
range) in an `int32` or `enum` field is sign-extended to 64 bits before
varint encoding, so it always occupies 10 varint bytes on the wire;
concretely, int32 field 1 holding -1 encodes as
`08 ff ff ff ff ff ff ff ff ff 01` (11 bytes with the tag). -/
theorem int32_sign_extended (b : Nat) (hlo : 2 ^ 31 ≤ b) (hhi : b < 2 ^ 32)
    (f : FieldInfo)
    (hdt : f.descriptortype = DescType.INT32 ∨ f.descriptortype = DescType.ENUM) :
    (∀ (c : EncCtx) (st st' : EncState),
      encode_scalar_impl c f (.prim b) st = .ok st' →
      st'.out = pure_tag f.number UPB_WIRE_TYPE_VARINT ++
        encode_varint64 (sext32 b) ++ st.out) ∧
    (encode_varint64 (sext32 b)).length = 10 ∧
    upb_encode_ex ⟨fun _ => true, 0, false⟩
      (UMsg.mk none [] [] .NONE [(⟨1, .INT32, false, 0⟩, .prim 4294967295)] []) =
      (some [8, 255, 255, 255, 255, 255, 255, 255, 255, 255, 1], 11) := by
  refine ⟨?_, ?_, neg1_concrete⟩
  · intro c st st' h
    have hpure : pure_scalar c f (.prim b) =
        pure_tag f.number UPB_WIRE_TYPE_VARINT ++ encode_varint64 (sext32 b) := by
      rcases hdt with hdt | hdt <;>
        (rw [pure_scalar.eq_def, hdt]; simp [primVal])
    rw [(encode_scalar_refines h).1, hpure]
    try simp
  · obtain ⟨h1, h2⟩ := sext32_neg_ge hlo hhi
    exact encode_varint64_length_ten h1 h2

/-- Witness for C3 at the bit pattern of -1 in an `int32` field numbered 1. -/
theorem int32_sign_extended_witness :
    2 ^ 31 ≤ 4294967295 ∧ 4294967295 < 2 ^ 32 ∧
    ((encode_varint64 (sext32 4294967295)).length = 10 ∧
     upb_encode_ex ⟨fun _ => true, 0, false⟩
       (UMsg.mk none [] [] .NONE [(⟨1, .INT32, false, 0⟩, .prim 4294967295)] []) =
       (some [8, 255, 255, 255, 255, 255, 255, 255, 255, 255, 1], 11)) :=
  ⟨by norm_num, by norm_num,
    (int32_sign_extended 4294967295 (by norm_num) (by norm_num)
      ⟨1, .INT32, false, 0⟩ (Or.inl rfl)).2⟩


/-- C2: the varint emitter writes the base-128 little-endian encoding of a
64-bit value (re-parsing recovers the value), which is at most 10 bytes
long, and the fast path (single byte) and the slow path (scratch area plus
bulk copy, `encode_longvarint`) put exactly the same bytes in the output
buffer. -/
theorem varint_fast_slow_agree (val : Nat) (hv : val < 2 ^ 64) :
    (encode_varint64 val).length ≤ 10 ∧
    (∀ rest, parseVarint (encode_varint64 val ++ rest) = some (val, rest)) ∧
    (∀ (c : EncCtx) (st st' : EncState), encode_varint c st val = .ok st' →
      st'.out = encode_varint64 val ++ st.out) ∧
    (∀ (c : EncCtx) (st st' : EncState), encode_longvarint c st val = .ok st' →
      st'.out = encode_varint64 val ++ st.out) ∧
    (∀ (c : EncCtx) (st st1 st2 : EncState),
      encode_varint c st val = .ok st1 → encode_longvarint c st val = .ok st2 →
      st1.out = st2.out) := by
  refine ⟨encode_varint64_length_le hv, fun rest => parseVarint_encode val rest,
    fun c st st' h => (encode_varint_ok h).1,
    fun c st st' h => (encode_longvarint_ok h).1,
    fun c st st1 st2 h1 h2 => ?_⟩
  rw [(encode_varint_ok h1).1, (encode_longvarint_ok h2).1]

/-- Witness for C2 at the two-byte value 300. -/
theorem varint_fast_slow_agree_witness :
    300 < 2 ^ 64 ∧ (encode_varint64 300).length ≤ 10 ∧
      parseVarint (encode_varint64 300 ++ [7]) = some (300, [7]) :=
  ⟨by norm_num, (varint_fast_slow_agree 300 (by norm_num)).1,
    (varint_fast_slow_agree 300 (by norm_num)).2.1 [7]⟩


/-- C8 (code bug): the fixed-width array path of the encoder copies raw
in-memory element bytes with no per-element byte swap (the `// ENDIAN??`
path of `encode_fixedarray_impl`), so on a big-endian host a packed
`fixed32` array `[1]` emits the big-endian bytes `00 00 00 01` rather than
the little-endian representation `01 00 00 00` that the claim requires and
that the scalar `fixed32` path (which does swap via `_upb_be_swap`) emits
for the same value. -/
theorem fixedarray_bigendian_no_swap :
    encode_fixedarray_impl ⟨fun _ => true, 0, true⟩ [1] 4 0 ⟨4, [], 64⟩ =
      .ok ⟨4, [0, 0, 0, 1], 64⟩ ∧
    pure_fixedarray ⟨fun _ => true, 0, true⟩ [1] 4 0 = [0, 0, 0, 1] ∧
    leBytes 4 1 = [1, 0, 0, 0] ∧
    pure_fixed32 ⟨fun _ => true, 0, true⟩ 1 = [1, 0, 0, 0] :=
  ⟨rfl, rfl, rfl, rfl⟩


/-- `pure_fieldwalk` in closed form: one block per declared field, in the
order of the layout's field array. -/
theorem pure_fieldwalk_flatten (c : EncCtx) (hb : List Nat)
    (oo : List (Int × Nat)) :
    ∀ flds, pure_fieldwalk c hb oo flds =
      (flds.map (fun fv =>
        if encode_shouldencode hb oo fv.1 fv.2 then pure_field c fv.1 fv.2
        else [])).flatten := by
  intro flds
  induction flds with
  | nil =>
    rw [pure_fieldwalk.eq_def]
    rfl
  | cons hd tl ih =>
    obtain ⟨fi, fv⟩ := hd
    rw [pure_fieldwalk.eq_def]
    simp only [List.map_cons, List.flatten_cons, ih]

/-- C1: when the layout's field array is sorted by field number ascending
(as the generator emits it), the declared fields appear in the encoded
output in exactly that order — the encoder walks the array from the last
field to the first while writing the buffer backwards, so the forward
reading of the buffer lists the per-field blocks in ascending
field-number order, ahead of any extension/unknown bytes. -/
theorem declared_fields_ascending (c : EncCtx) (m : UMsg)
    (hsorted : List.Chain'
      (fun a b : FieldInfo × FieldVal => a.1.number < b.1.number) m.fields) :
    (∀ (st : EncState) (r : EncState × Nat),
      encode_message_impl c m st = .ok r →
      ∃ tail, r.1.out =
        (m.fields.map (fun fv =>
          if encode_shouldencode m.hasbits m.oneofs fv.1 fv.2 then
            pure_field c fv.1 fv.2 else [])).flatten ++ tail ++ st.out) ∧
    List.Chain' (fun a b => a < b) (m.fields.map (fun fv => fv.1.number)) := by
  constructor
  · intro st r h
    have e1 := (encode_message_refines h).1
    refine ⟨(if m.extMode ≠ ExtMode.NONE then pure_extwalk c m.extMode m.exts
        else []) ++
      (if c.options &&& UPB_ENCODE_SKIPUNKNOWN = 0 then (m.unknown).getD []
        else []), ?_⟩
    rw [e1, pure_message.eq_def, pure_fieldwalk_flatten]
    simp [List.append_assoc]
  · exact (List.chain'_map _).mpr hsorted

/-- Witness for C1 on a two-field message with field numbers 1 and 2. -/
theorem declared_fields_ascending_witness :
    List.Chain' (fun a b : Nat => a < b)
      (((UMsg.mk none [] [] .NONE
        [(⟨1, .BOOL, false, 0⟩, .prim 1), (⟨2, .INT32, false, 0⟩, .prim 5)]
        []).fields).map (fun fv => fv.1.number)) :=
  (declared_fields_ascending ⟨fun _ => true, 0, false⟩
    (UMsg.mk none [] [] .NONE
      [(⟨1, .BOOL, false, 0⟩, .prim 1), (⟨2, .INT32, false, 0⟩, .prim 5)] [])
    (by simp [UMsg.fields])).2


/-! ### Determinism of the sorted map view -/

theorem lexLe_total : ∀ (x y : List Nat), lexLe x y = true ∨ lexLe y x = true := by
  intro x
  induction x with
  | nil => intro y; left; simp [lexLe]
  | cons a as_ ih =>
    intro y
    cases y with
    | nil => right; simp [lexLe]
    | cons b bs =>
      rcases Nat.lt_trichotomy a b with h | h | h
      · left; simp [lexLe, h]
      · subst h
        rcases ih bs with h' | h'
        · left; simp [lexLe, h']
        · right; simp [lexLe, h']
      · right; simp [lexLe, h]

theorem lexLe_trans : ∀ {x y z : List Nat}, lexLe x y = true →
    lexLe y z = true → lexLe x z = true := by
  intro x
  induction x with
  | nil => intro y z h1 h2; simp [lexLe]
  | cons a as_ ih =>
    intro y z h1 h2
    cases y with
    | nil => simp [lexLe] at h1
    | cons b bs =>
      cases z with
      | nil => simp [lexLe] at h2
      | cons cz cs =>
        simp only [lexLe] at h1 h2 ⊢
        rcases Nat.lt_trichotomy a b with hab | hab | hab
        · rcases Nat.lt_trichotomy b cz with hbc | hbc | hbc
          · simp [Nat.lt_trans hab hbc]
          · subst hbc; simp [hab]
          · rw [if_neg (by omega), if_pos hbc] at h2
            exact absurd h2 (by simp)
        · subst hab
          rcases Nat.lt_trichotomy a cz with hbc | hbc | hbc
          · simp [hbc]
          · subst hbc
            rw [if_neg (by omega), if_neg (by omega)] at h1 h2 ⊢
            exact ih h1 h2
          · rw [if_neg (by omega), if_pos hbc] at h2
            exact absurd h2 (by simp)
        · rw [if_neg (by omega), if_pos hab] at h1
          exact absurd h1 (by simp)

theorem lexLe_antisymm : ∀ {x y : List Nat}, lexLe x y = true →
    lexLe y x = true → x = y := by
  intro x
  induction x with
  | nil =>
    intro y h1 h2
    cases y with
    | nil => rfl
    | cons b bs => simp [lexLe] at h2
  | cons a as_ ih =>
    intro y h1 h2
    cases y with
    | nil => simp [lexLe] at h1
    | cons b bs =>
      simp only [lexLe] at h1 h2
      by_cases hab : a < b
      · rw [if_neg (by omega), if_pos hab] at h2
        exact absurd h2 (by simp)
      · by_cases hba : b < a
        · rw [if_neg (by omega), if_pos hba] at h1
          exact absurd h1 (by simp)
        · rw [if_neg hab, if_neg hba] at h1
          rw [if_neg hba, if_neg hab] at h2
          have hEq : a = b := by omega
          rw [hEq, ih h1 h2]

theorem mapKeyLe_total (t : DescType) (a b : FieldVal) :
    mapKeyLe t a b = true ∨ mapKeyLe t b a = true := by
  unfold mapKeyLe
  cases ha : mapKeyRank t a <;> cases hb : mapKeyRank t b <;> simp
  · omega
  · exact lexLe_total _ _

theorem mapKeyLe_trans (t : DescType) {a b c : FieldVal}
    (h1 : mapKeyLe t a b = true) (h2 : mapKeyLe t b c = true) :
    mapKeyLe t a c = true := by
  unfold mapKeyLe at h1 h2 ⊢
  cases ha : mapKeyRank t a <;> cases hb : mapKeyRank t b <;>
    cases hc : mapKeyRank t c <;>
    rw [ha, hb] at h1 <;> rw [hb, hc] at h2 <;> simp_all
  · omega
  · exact lexLe_trans h1 h2

theorem mapKeyLe_antisymm_rank {t : DescType} {a b : FieldVal}
    (h1 : mapKeyLe t a b = true) (h2 : mapKeyLe t b a = true) :
    mapKeyRank t a = mapKeyRank t b := by
  unfold mapKeyLe at h1 h2
  cases ha : mapKeyRank t a <;> cases hb : mapKeyRank t b <;>
    rw [ha, hb] at h1 h2 <;> simp_all
  · omega
  · exact lexLe_antisymm h1 h2


theorem sortedMapEntries_sorted (t : DescType)
    (es : List (FieldVal × FieldVal)) :
    (sortedMapEntries t es).Pairwise
      (fun a b => mapKeyLe t a.1 b.1 = true) := by
  haveI : IsTotal (FieldVal × FieldVal)
      (fun a b => mapKeyLe t a.1 b.1 = true) :=
    ⟨fun a b => mapKeyLe_total t a.1 b.1⟩
  haveI : IsTrans (FieldVal × FieldVal)
      (fun a b => mapKeyLe t a.1 b.1 = true) :=
    ⟨fun _ _ _ h1 h2 => mapKeyLe_trans t h1 h2⟩
  exact List.sorted_insertionSort _ es

theorem sorted_perm_nodup_eq (t : DescType) :
    ∀ (l1 l2 : List (FieldVal × FieldVal)),
      l1.Perm l2 →
      l1.Pairwise (fun a b => mapKeyLe t a.1 b.1 = true) →
      l2.Pairwise (fun a b => mapKeyLe t a.1 b.1 = true) →
      (l1.map (fun e => mapKeyRank t e.1)).Nodup →
      l1 = l2 := by
  intro l1
  induction l1 with
  | nil =>
    intro l2 hp _ _ _
    exact hp.symm.eq_nil.symm
  | cons a t1 ih =>
    intro l2 hp h1 h2 hnd
    cases l2 with
    | nil => exact absurd hp.eq_nil (by simp)
    | cons b t2 =>
      have hab : a = b := by
        by_contra hne
        have hbin : b ∈ a :: t1 := hp.symm.subset (List.mem_cons_self _ _)
        have hain : a ∈ b :: t2 := hp.subset (List.mem_cons_self _ _)
        have hb_t1 : b ∈ t1 := by
          rcases List.mem_cons.1 hbin with h | h
          · exact absurd h.symm hne
          · exact h
        have ha_t2 : a ∈ t2 := by
          rcases List.mem_cons.1 hain with h | h
          · exact absurd h hne
          · exact h
        have h_ab : mapKeyLe t a.1 b.1 = true :=
          (List.pairwise_cons.1 h1).1 b hb_t1
        have h_ba : mapKeyLe t b.1 a.1 = true :=
          (List.pairwise_cons.1 h2).1 a ha_t2
        have hrank := mapKeyLe_antisymm_rank h_ab h_ba
        apply (List.nodup_cons.1 hnd).1
        show mapKeyRank t a.1 ∈ _
        rw [hrank]
        exact List.mem_map_of_mem _ hb_t1
      subst hab
      rw [ih t2 hp.cons_inv (List.pairwise_cons.1 h1).2
        (List.pairwise_cons.1 h2).2 (List.nodup_cons.1 hnd).2]

theorem sortedMapEntries_eq_of_perm (t : DescType)
    {es1 es2 : List (FieldVal × FieldVal)} (hperm : es1.Perm es2)
    (hnd : (es1.map (fun e => mapKeyRank t e.1)).Nodup) :
    sortedMapEntries t es1 = sortedMapEntries t es2 := by
  apply sorted_perm_nodup_eq t
  · exact (List.perm_insertionSort
        (fun a b => mapKeyLe t a.1 b.1 = true) es1).trans
      (hperm.trans (List.perm_insertionSort
        (fun a b => mapKeyLe t a.1 b.1 = true) es2).symm)
  · exact sortedMapEntries_sorted t es1
  · exact sortedMapEntries_sorted t es2
  · exact (((List.perm_insertionSort
      (fun a b => mapKeyLe t a.1 b.1 = true) es1).map
      (fun e => mapKeyRank t e.1)).nodup_iff).2 hnd


theorem encode_map_impl_congr (c : EncCtx)
    (hdet : c.options &&& UPB_ENCODE_DETERMINISTIC ≠ 0)
    (f kf vf : FieldInfo) {es1 es2 : List (FieldVal × FieldVal)}
    (heq : sortedMapEntries kf.descriptortype es1 =
      sortedMapEntries kf.descriptortype es2) :
    ∀ st, encode_map_impl c f (.mp (some (UMap.mk kf vf es1))) st =
      encode_map_impl c f (.mp (some (UMap.mk kf vf es2))) st := by
  intro st
  rw [encode_map_impl.eq_def, encode_map_impl.eq_def]
  dsimp only [mapVal]
  rw [if_pos hdet, if_pos hdet, heq]

theorem encode_fieldwalk_congr (c : EncCtx) (hb : List Nat)
    (oo : List (Int × Nat)) (x y : FieldInfo × FieldVal)
    (hxy : ∀ st, encode_field_impl c x.1 x.2 st =
      encode_field_impl c y.1 y.2 st)
    (hs : encode_shouldencode hb oo x.1 x.2 =
      encode_shouldencode hb oo y.1 y.2) :
    ∀ (pre post : List (FieldInfo × FieldVal)) (st : EncState),
      encode_fieldwalk c hb oo (pre ++ x :: post) st =
        encode_fieldwalk c hb oo (pre ++ y :: post) st := by
  intro pre
  induction pre with
  | nil =>
    intro post st
    obtain ⟨fx, vx⟩ := x
    obtain ⟨fy, vy⟩ := y
    rw [List.nil_append, List.nil_append,
      encode_fieldwalk.eq_def, encode_fieldwalk.eq_def]
    simp only at hxy hs
    simp only [hs, hxy]
  | cons hd tl ih =>
    intro post st
    obtain ⟨fh, vh⟩ := hd
    rw [List.cons_append, List.cons_append,
      encode_fieldwalk.eq_def, encode_fieldwalk.eq_def]
    simp only [ih post]

theorem encode_message_congr_fields (c : EncCtx) (un : Option (List Nat))
    (hb : List Nat) (oo : List (Int × Nat)) (em : ExtMode)
    (exts flds1 flds2 : List (FieldInfo × FieldVal))
    (hfw : ∀ st, encode_fieldwalk c hb oo flds1 st =
      encode_fieldwalk c hb oo flds2 st) :
    ∀ st, encode_message_impl c (UMsg.mk un hb oo em flds1 exts) st =
      encode_message_impl c (UMsg.mk un hb oo em flds2 exts) st := by
  intro st
  rw [encode_message_impl.eq_def, encode_message_impl.eq_def]
  simp only [UMsg.unknown, UMsg.hasbits, UMsg.oneofs, UMsg.extMode,
    UMsg.fields, UMsg.exts]
  simp only [hfw]


/-- C9: with the DETERMINISTIC option set the encoding is a function of
the message value alone: permuting the stored order of a map field's
entries (keys distinct) leaves the top-level encoder output byte-for-byte
identical, because the entries are emitted from a view sorted by key. -/
theorem deterministic_map_encoding (c : EncCtx)
    (hdet : c.options &&& UPB_ENCODE_DETERMINISTIC ≠ 0)
    (un : Option (List Nat)) (hb : List Nat) (oo : List (Int × Nat))
    (em : ExtMode) (exts pre post : List (FieldInfo × FieldVal))
    (f kf vf : FieldInfo) (es1 es2 : List (FieldVal × FieldVal))
    (hperm : es1.Perm es2)
    (hnd : (es1.map (fun e => mapKeyRank kf.descriptortype e.1)).Nodup) :
    upb_encode_ex c (UMsg.mk un hb oo em
        (pre ++ (f, .mp (some (UMap.mk kf vf es1))) :: post) exts) =
      upb_encode_ex c (UMsg.mk un hb oo em
        (pre ++ (f, .mp (some (UMap.mk kf vf es2))) :: post) exts) := by
  have heq := sortedMapEntries_eq_of_perm kf.descriptortype hperm hnd
  have hmap := encode_map_impl_congr c hdet f kf vf heq
  have hfield : ∀ st,
      encode_field_impl c f (.mp (some (UMap.mk kf vf es1))) st =
        encode_field_impl c f (.mp (some (UMap.mk kf vf es2))) st := by
    intro st
    rw [encode_field_impl.eq_def, encode_field_impl.eq_def]
    exact hmap st
  have hs : encode_shouldencode hb oo f (.mp (some (UMap.mk kf vf es1))) =
      encode_shouldencode hb oo f (.mp (some (UMap.mk kf vf es2))) := by
    simp [encode_shouldencode]
  have hfw := encode_fieldwalk_congr c hb oo
    (f, .mp (some (UMap.mk kf vf es1))) (f, .mp (some (UMap.mk kf vf es2)))
    hfield hs
  have hmsg := encode_message_congr_fields c un hb oo em exts
    (pre ++ (f, .mp (some (UMap.mk kf vf es1))) :: post)
    (pre ++ (f, .mp (some (UMap.mk kf vf es2))) :: post)
    (fun st => hfw pre post st)
  unfold upb_encode_ex
  rw [hmsg]

/-- Witness for C9: a two-entry int32-keyed map inserted in the two
possible orders, deterministic option set. -/
theorem deterministic_map_encoding_witness :
    upb_encode_ex ⟨fun _ => true, 1, false⟩ (UMsg.mk none [] [] .NONE
      [(⟨3, .MESSAGE, false, 0⟩, .mp (some (UMap.mk ⟨1, .INT32, false, 0⟩
        ⟨2, .INT32, false, 0⟩ [(.prim 1, .prim 10), (.prim 2, .prim 20)])))]
      []) =
    upb_encode_ex ⟨fun _ => true, 1, false⟩ (UMsg.mk none [] [] .NONE
      [(⟨3, .MESSAGE, false, 0⟩, .mp (some (UMap.mk ⟨1, .INT32, false, 0⟩
        ⟨2, .INT32, false, 0⟩ [(.prim 2, .prim 20), (.prim 1, .prim 10)])))]
      []) :=
  deterministic_map_encoding ⟨fun _ => true, 1, false⟩ (by decide)
    none [] [] .NONE [] [] [] ⟨3, .MESSAGE, false, 0⟩ ⟨1, .INT32, false, 0⟩
    ⟨2, .INT32, false, 0⟩ _ _ (List.Perm.swap _ _ _) (by decide)


/-! ### Packed payloads: parsing is inverse to encoding -/

theorem encode_varint64_ne_nil (v : Nat) : encode_varint64 v ≠ [] := by
  rw [encode_varint64]
  split <;> simp

theorem parseVarints_flatten :
    ∀ vs : List Nat,
      parseVarints (List.flatten (vs.map encode_varint64)) = some vs := by
  intro vs
  induction vs with
  | nil =>
    rw [parseVarints.eq_def]
    rfl
  | cons x rest ih =>
    have hne : encode_varint64 x ≠ [] := encode_varint64_ne_nil x
    rw [List.map_cons, List.flatten_cons]
    cases he : encode_varint64 x with
    | nil => exact absurd he hne
    | cons b bs =>
      rw [List.cons_append, parseVarints]
      have hp : parseVarint (b :: (bs ++ List.flatten (rest.map encode_varint64))) =
          some (x, List.flatten (rest.map encode_varint64)) := by
        have := parseVarint_encode x (List.flatten (rest.map encode_varint64))
        rw [he] at this
        simpa using this
      rw [hp]
      dsimp only
      rw [ih]

theorem parseFixedElems_flatten (w : Nat) (hw : 0 < w) :
    ∀ xs : List Nat, (∀ x ∈ xs, x < 2 ^ (8 * w)) →
      parseFixedElems w (List.flatten (xs.map (leBytes w))) = some xs := by
  intro xs
  induction xs with
  | nil =>
    intro _
    rw [parseFixedElems]
    simp [Nat.pos_iff_ne_zero.1 hw]
  | cons x rest ih =>
    intro hb
    rw [List.map_cons, List.flatten_cons, parseFixedElems]
    have hlen : (leBytes w x).length = w := leBytes_length w x
    have hne : leBytes w x ++ List.flatten (rest.map (leBytes w)) ≠ [] := by
      intro hcontra
      have := congrArg List.length hcontra
      simp [hlen] at this
      omega
    rw [if_neg (Nat.pos_iff_ne_zero.1 hw), if_neg hne,
      if_neg (by simp [List.length_append, hlen]),
      List.drop_left' hlen, List.take_left' hlen,
      ih (fun y hy => hb y (List.mem_cons_of_mem _ hy)),
      fromLeBytes_leBytes (hb x (List.mem_cons_self _ _))]

theorem map_map_inverse {f g : Nat → Nat} :
    ∀ l : List Nat, (∀ x ∈ l, g (f x) = x) → (l.map f).map g = l := by
  intro l
  induction l with
  | nil => intro _; rfl
  | cons x rest ih =>
    intro h
    simp only [List.map_cons]
    rw [h x (List.mem_cons_self _ _), ih (fun y hy => h y (List.mem_cons_of_mem _ hy))]

theorem pure_varintarray_zero (enc : Nat → Nat) :
    ∀ elems : List Nat, pure_varintarray enc elems 0 =
      List.flatten (elems.map (fun x => encode_varint64 (enc x))) := by
  intro elems
  induction elems with
  | nil => rw [pure_varintarray]; rfl
  | cons x rest ih =>
    rw [pure_varintarray, ih]
    simp

theorem pure_fixedarray_zero (c : EncCtx) (elems : List Nat) (w : Nat) :
    pure_fixedarray c elems w 0 =
      List.flatten (elems.map (memBytes c.bigEndian w)) := by
  rw [pure_fixedarray]
  simp


theorem pure_array_packed (c : EncCtx) (f : FieldInfo) (elems : List Nat)
    (hpk : f.packed = true) (ht : packable f.descriptortype = true)
    (hne : elems ≠ []) :
    pure_array c f (.arrPrim (some elems)) =
      pure_tag f.number UPB_WIRE_TYPE_DELIMITED ++
        encode_varint64
          (packedBody c.bigEndian f.descriptortype elems).length ++
        packedBody c.bigEndian f.descriptortype elems := by
  rw [pure_array.eq_def]
  dsimp only
  rw [hpk, if_neg (by simp [arrNull, arrLen, hne])]
  cases hdt : f.descriptortype <;> rw [hdt] at ht <;>
    first
      | exact absurd ht (by decide)
      | (dsimp only
         simp [pure_fixedarray_zero, pure_varintarray_zero, packedBody,
           arrPrimVal])


theorem memBytes_false (w : Nat) : memBytes false w = leBytes w := rfl

theorem parsePacked_packedBody (t : DescType) (elems : List Nat)
    (ht : packable t = true)
    (hbound : ∀ x ∈ elems, x < 2 ^ elemBits t) :
    parsePacked t (packedBody false t elems) = some elems := by
  cases t
  case DOUBLE =>
    simp only [parsePacked, packedBody]
    rw [memBytes_false]
    exact parseFixedElems_flatten 8 (by norm_num) elems (fun x hx => by
      have h2 := hbound x hx
      simp only [elemBits] at h2
      norm_num
      exact h2)
  case FLOAT =>
    simp only [parsePacked, packedBody]
    rw [memBytes_false]
    exact parseFixedElems_flatten 4 (by norm_num) elems (fun x hx => by
      have h2 := hbound x hx
      simp only [elemBits] at h2
      norm_num
      exact h2)
  case INT64 =>
    simp only [parsePacked, packedBody]
    rw [parseVarints_flatten]
    simp only [Option.map_some']
    congr 1
    exact (List.map_congr_left (fun x _ => by simp [varintDecode])).trans
      (List.map_id elems)
  case UINT64 =>
    simp only [parsePacked, packedBody]
    rw [parseVarints_flatten]
    simp only [Option.map_some']
    congr 1
    exact (List.map_congr_left (fun x _ => by simp [varintDecode])).trans
      (List.map_id elems)
  case INT32 =>
    simp only [parsePacked, packedBody]
    rw [show List.map (fun x => encode_varint64 (sext32 x)) elems =
        List.map encode_varint64 (List.map sext32 elems) from by
      rw [List.map_map]
      rfl]
    rw [parseVarints_flatten]
    simp only [Option.map_some']
    congr 1
    exact map_map_inverse elems (fun x hx => by
      simp only [varintDecode]
      exact sext32_mod x (by simpa [elemBits] using hbound x hx))
  case FIXED64 =>
    simp only [parsePacked, packedBody]
    rw [memBytes_false]
    exact parseFixedElems_flatten 8 (by norm_num) elems (fun x hx => by
      have h2 := hbound x hx
      simp only [elemBits] at h2
      norm_num
      exact h2)
  case FIXED32 =>
    simp only [parsePacked, packedBody]
    rw [memBytes_false]
    exact parseFixedElems_flatten 4 (by norm_num) elems (fun x hx => by
      have h2 := hbound x hx
      simp only [elemBits] at h2
      norm_num
      exact h2)
  case BOOL =>
    simp only [parsePacked, packedBody]
    rw [parseVarints_flatten]
    simp only [Option.map_some']
    congr 1
    exact (List.map_congr_left (fun x _ => by simp [varintDecode])).trans
      (List.map_id elems)
  case STRING => exact absurd ht (by decide)
  case GROUP => exact absurd ht (by decide)
  case MESSAGE => exact absurd ht (by decide)
  case BYTES => exact absurd ht (by decide)
  case UINT32 =>
    simp only [parsePacked, packedBody]
    rw [parseVarints_flatten]
    simp only [Option.map_some']
    congr 1
    exact (List.map_congr_left (fun x _ => by simp [varintDecode])).trans
      (List.map_id elems)
  case ENUM =>
    simp only [parsePacked, packedBody]
    rw [show List.map (fun x => encode_varint64 (sext32 x)) elems =
        List.map encode_varint64 (List.map sext32 elems) from by
      rw [List.map_map]
      rfl]
    rw [parseVarints_flatten]
    simp only [Option.map_some']
    congr 1
    exact map_map_inverse elems (fun x hx => by
      simp only [varintDecode]
      exact sext32_mod x (by simpa [elemBits] using hbound x hx))
  case SFIXED32 =>
    simp only [parsePacked, packedBody]
    rw [memBytes_false]
    exact parseFixedElems_flatten 4 (by norm_num) elems (fun x hx => by
      have h2 := hbound x hx
      simp only [elemBits] at h2
      norm_num
      exact h2)
  case SFIXED64 =>
    simp only [parsePacked, packedBody]
    rw [memBytes_false]
    exact parseFixedElems_flatten 8 (by norm_num) elems (fun x hx => by
      have h2 := hbound x hx
      simp only [elemBits] at h2
      norm_num
      exact h2)
  case SINT32 =>
    simp only [parsePacked, packedBody]
    rw [show List.map (fun x => encode_varint64 (encode_zz32 x)) elems =
        List.map encode_varint64 (List.map encode_zz32 elems) from by
      rw [List.map_map]
      rfl]
    rw [parseVarints_flatten]
    simp only [Option.map_some']
    congr 1
    exact map_map_inverse elems (fun x hx => by
      simp only [varintDecode]
      exact decode_zz32_encode (by simpa [elemBits] using hbound x hx))
  case SINT64 =>
    simp only [parsePacked, packedBody]
    rw [show List.map (fun x => encode_varint64 (encode_zz64 x)) elems =
        List.map encode_varint64 (List.map encode_zz64 elems) from by
      rw [List.map_map]
      rfl]
    rw [parseVarints_flatten]
    simp only [Option.map_some']
    congr 1
    exact map_map_inverse elems (fun x hx => by
      simp only [varintDecode]
      exact decode_zz64_encode (by simpa [elemBits] using hbound x hx))


theorem encode_array_none (c : EncCtx) (f : FieldInfo) (st : EncState) :
    encode_array_impl c f (.arrPrim none) st = .ok st := by
  rw [encode_array_impl.eq_def]
  rfl

theorem encode_array_empty (c : EncCtx) (f : FieldInfo) (st : EncState) :
    encode_array_impl c f (.arrPrim (some [])) st = .ok st := by
  rw [encode_array_impl.eq_def]
  rfl

/-- C5: a packed repeated field writes its elements back to front with no
tags between them, then a single length varint counting exactly the bytes
the elements occupied, then one DELIMITED tag — so the forward reading is
tag, length, payload; re-parsing the payload yields the original element
sequence in order, and a NULL or empty array writes nothing. -/
theorem packed_array_roundtrip (c : EncCtx) (f : FieldInfo)
    (elems : List Nat) (hpk : f.packed = true) (hle : c.bigEndian = false)
    (ht : packable f.descriptortype = true)
    (hbound : ∀ x ∈ elems, x < 2 ^ elemBits f.descriptortype)
    (hne : elems ≠ []) :
    (∀ (st st' : EncState),
      encode_array_impl c f (.arrPrim (some elems)) st = .ok st' →
      st'.out = pure_tag f.number UPB_WIRE_TYPE_DELIMITED ++
        encode_varint64
          (packedBody c.bigEndian f.descriptortype elems).length ++
        packedBody c.bigEndian f.descriptortype elems ++ st.out) ∧
    parsePacked f.descriptortype
      (packedBody c.bigEndian f.descriptortype elems) = some elems ∧
    (∀ st, encode_array_impl c f (.arrPrim none) st = .ok st) ∧
    (∀ st, encode_array_impl c f (.arrPrim (some [])) st = .ok st) := by
  refine ⟨?_, ?_, fun st => encode_array_none c f st,
    fun st => encode_array_empty c f st⟩
  · intro st st' h
    rw [(encode_array_refines h).1, pure_array_packed c f elems hpk ht hne]
    try simp
  · rw [hle]
    exact parsePacked_packedBody f.descriptortype elems ht hbound

/-- Witness for C5: a packed fixed32 field with elements 1 and 2. -/
theorem packed_array_roundtrip_witness :
    parsePacked DescType.FIXED32
      (packedBody false DescType.FIXED32 [1, 2]) = some [1, 2] :=
  (packed_array_roundtrip ⟨fun _ => true, 0, false⟩
    ⟨1, .FIXED32, true, 0⟩ [1, 2] rfl rfl (by decide) (by decide)
    (by decide)).2.1

end Upb
